import Mathlib

/-!
Verification of the `unified-backend` case-simulation engine
(`src/api/management/commands/create_data.py`).

The Python command is a recursive walk over named workflow stages with
probabilistic branching.  We embed it as a small-step machine:

* randomness is an explicit pair of streams, `delays : Nat → Nat` for the
  `random.expovariate(1/12)` service-time draws (in seconds) and
  `draws : Nat → Nat` for every `random.randint` / `random.choice` call;
  the engine state carries a cursor into each stream;
* every stage handler of the source becomes one instruction; a handler whose
  body continues after a recursive call returns (only `revision_suscripcion`,
  lines 285-306) is split at the call site into the entry instruction and an
  explicit tail instruction, exactly as the spec's design notes (§9) ask for;
* the Django rows (`Case`, `Activity`, `Rework`, `Bill`) become lists in the
  state; timestamps are seconds since the epoch as natural numbers.

The post-processing analytics (`create_variants`, `add_TPT`,
`add_time_to_cases`) are embedded as pure functions over the activity list.
-/

namespace UnifiedBackend

/-- One `api.models.Activity` row as written by `write_in_file`
(create_data.py line 69): `case_index` is set to `case.case_id`,
`tpt` defaults to 0, `id` is the auto-increment primary key. -/
structure Act where
  id : Nat
  caseId : Nat
  name : String
  ts : Nat
  caseIndex : Nat
  tpt : Int
deriving Repr, DecidableEq, Inhabited

/-- One `Rework` row (created at lines 189, 257, 296, 376, 425, 437, 530, 542).
`activityName`/`activityTs` identify the `activity` foreign key (the most
recent activity of the case at creation time); `cause` is the index of the
uniformly drawn cause in the fixed 7-item vocabulary. -/
structure ReworkRec where
  caseId : Nat
  activityName : String
  activityTs : Nat
  cost : Int
  target : String
  cause : Nat
deriving Repr, DecidableEq, Inhabited

/-- One `Bill` row (created at line 476). -/
structure BillRec where
  caseId : Nat
  value : Nat
  ts : Nat
deriving Repr, DecidableEq, Inhabited

/-- The engine-local `Command.Case` object (create_data.py lines 20-32).
The vocabularies `BRANCHES`, `RAMOS`, `NAMES` live in
`api/management/commands/constants.py`, which is not among the provided
sources, so the `random.choice` results are recorded as the raw draw values. -/
structure CaseObj where
  case_id : Nat
  type : String
  last_timestamp : Nat
  branch : Nat
  ramo : Nat
  brocker : Nat
  state : String
  client : Nat
  creator : Nat
  value : Nat
  insurance : Nat
deriving Repr, DecidableEq, Inhabited

/-- The persisted `Case` row as created at line 138 (`approved` defaults to
false and is set only by the success branch of
`finalizar_poliza_factura_cliente`). -/
structure CaseRow where
  id : Nat
  type : String
  state : String
  approved : Bool
  value : Nat
  avg_time : Int
  insuranceCreation : Int
  insuranceStart : Int
  insuranceEnd : Int
deriving Repr, DecidableEq, Inhabited

/-- The whole mutable state of one `create_data` run: the current case object
being walked, the persisted rows, the `cases_ids` collision list, and the two
random-stream cursors (`di` for delays, `ri` for integer draws). -/
structure EngineState where
  cur : CaseObj
  caseRows : List CaseRow
  cases_ids : List Nat
  acts : List Act
  reworks : List ReworkRec
  bills : List BillRec
  di : Nat
  ri : Nat
deriving Repr, DecidableEq, Inhabited

/-- The three case types drawn at line 121. -/
def caseTypes : List String := ["Renewal", "Issuance", "Policy onboarding"]

/-- The insurance durations drawn at lines 131/135. -/
def durations : List Nat := [180, 365, 730]

def secondsPerDay : Nat := 86400

/-- Epoch seconds of `datetime(2025, 1, 1, 12, 0, 0)` (line 123). -/
def baseTs : Nat := 1735732800

/-- `write_in_file` (lines 49-69): appends the `Activity` row; note that
`case_index` is set to `case.case_id` (line 69). -/
def write_in_file (activity : String) (case : CaseObj) (acts : List Act) : List Act :=
  acts ++ [{ id := acts.length, caseId := case.case_id, name := activity,
             ts := case.last_timestamp, caseIndex := case.case_id, tpt := 0 }]

/-- `update_case` (lines 72-92): advance the working timestamp by an
exponential service-time draw, set the state on the case object and its row,
and append the activity. -/
def update_case (delays : Nat → Nat) (activity : String) (s : EngineState) : EngineState :=
  let cur := { s.cur with last_timestamp := s.cur.last_timestamp + delays s.di,
                          state := activity }
  { s with
    cur := cur
    caseRows := s.caseRows.map
      (fun r => if r.id = cur.case_id then { r with state := activity } else r)
    acts := write_in_file activity cur s.acts
    di := s.di + 1 }

/-- The activities of the current case, in insertion (= primary key) order:
`Activity.objects.filter(case=Case.objects.get(id=case.case_id))`. -/
def case_activities (s : EngineState) : List Act :=
  s.acts.filter (fun a => a.caseId = s.cur.case_id)

/-- The rework-creation block repeated at every return-to-earlier-stage
transition (e.g. lines 182-189): `activity` is `.last()` of the case's
activities, `return_activity` is `.first()` of those named `target`; the cost
is their timestamp difference in seconds, or 0 if the target stage was never
visited.  The source dereferences `activity.timestamp`, so an empty activity
list would raise; we model that as `none`. -/
def rework_cost (s : EngineState) (activity : Act) (target : String) : Int :=
  match (case_activities s).find? (fun a => a.name = target) with
  | some return_activity => (activity.ts : Int) - (return_activity.ts : Int)
  | none => 0

/-- The `Rework.objects.create` part of the block. -/
def create_rework (draws : Nat → Nat) (target : String) (s : EngineState) :
    Option EngineState :=
  match (case_activities s).getLast? with
  | none => none
  | some activity =>
    let rework : ReworkRec :=
      { caseId := s.cur.case_id, activityName := activity.name,
        activityTs := activity.ts, cost := rework_cost s activity target,
        target := target, cause := draws s.ri % 7 }
    some { s with reworks := s.reworks ++ [rework], ri := s.ri + 1 }

/-- `case2.approved = True; case2.save()` (lines 516-518). -/
def approve_case (s : EngineState) : EngineState :=
  { s with
    caseRows := s.caseRows.map
      (fun r => if r.id = s.cur.case_id then { r with approved := true } else r) }

/-- Consume one integer draw: the cursor advance of every
`random.randint` / `random.choice` call. -/
def take_draw (s : EngineState) : EngineState := { s with ri := s.ri + 1 }

/-- Persist a batch of freshly generated `Bill` rows. -/
def add_bills (bs : List BillRec) (s : EngineState) : EngineState :=
  { s with bills := s.bills ++ bs }

/-- `new_case_id` (lines 36-47): draw `randint(1, 10000)` and redraw while the
id collides with `cases_ids`.  The loop has no intrinsic bound, so it takes
fuel; it returns the fresh id and the advanced draw cursor. -/
def new_case_id (draws : Nat → Nat) : Nat → Nat → List Nat → Option (Nat × Nat)
  | 0, _, _ => none
  | fuel + 1, ri, ids =>
    let case_id := 1 + draws ri % 10000
    if case_id ∈ ids then new_case_id draws fuel (ri + 1) ids
    else some (case_id, ri + 1)

def thirtyDays : Nat := 30 * secondsPerDay

/-- The billing loop of `iniciar_facturacion` (lines 474-477): one `Bill` per
started 30-day period from the stage timestamp up to `now`, each carrying the
case's value.  The `while` loop is modelled with fuel (any fuel of at least
`now - t` suffices, see `billLoop_isSome`). -/
def billLoop (now value caseId : Nat) : Nat → Nat → Option (List BillRec)
  | 0, t => if t < now then none else some []
  | fuel + 1, t =>
    if t < now then
      (billLoop now value caseId fuel (t + thirtyDays)).map
        (fun bs => { caseId := caseId, value := value, ts := t } :: bs)
    else some []

/-- The stage handlers of the workflow engine.  Each constructor is one
handler of the source; `revision_suscripcion_tail` is the code of
`revision_suscripcion` after its recursive call site (lines 302-306), which
runs regardless of which branch was taken before it. -/
inductive Instr where
  | start
  | ingresar_tramite
  | registrar_PO
  | registro_de_compromiso
  | enviar_revision_suscripcion
  | validar_info_enviada
  | revision_suscripcion
  | revision_suscripcion_tail
  | aprobar_suscripcion_local
  | aceptar_brocker
  | visado
  | revision_emision
  | iniciar_facturacion
  | finalizar_poliza_factura_cliente
deriving Repr, DecidableEq, Inhabited

/-- The body of `start` (lines 94-147) after `new_case_id` returned
`case_id` with the draw cursor at `r1`: generate the case attributes
(consuming the random draws in source order), persist the `Case` row, and
schedule the type-specific branch followed unconditionally by
`registro_de_compromiso`. -/
def stepStartWith (draws : Nat → Nat) (case_id r1 : Nat) (s : EngineState) :
    EngineState × List Instr :=
  let case_type := caseTypes.getD (draws s.ri % 3) ""
  let day := 1 + draws r1 % 76
  let hour := 1 + draws (r1 + 1) % 24
  let minute := 1 + draws (r1 + 2) % 60
  let second := 1 + draws (r1 + 3) % 60
  let initial_timestamp :=
    baseTs + day * secondsPerDay + hour * 3600 + minute * 60 + second
  let value := (10 + draws (r1 + 4) % 91) * 100
  let insurance := 1 + draws (r1 + 5) % 100000
  let cur : CaseObj :=
    { case_id := case_id, type := case_type, last_timestamp := initial_timestamp,
      branch := draws (r1 + 6), ramo := draws (r1 + 7), brocker := draws (r1 + 8),
      state := "Start", client := draws (r1 + 9), creator := draws (r1 + 10),
      value := value, insurance := insurance }
  let rand_num := 1 + draws (r1 + 11) % 100
  let c1 := 1 + draws (r1 + 12) % 5
  let c2 := 1 + draws (r1 + 13) % 5
  let dur := durations.getD (draws (r1 + 14) % 3) 0
  let insurance_creation : Int :=
    if rand_num ≤ 10 then (initial_timestamp : Int) - c1 * secondsPerDay
    else (initial_timestamp : Int) + c1 * secondsPerDay
  let insurance_start : Int :=
    if rand_num ≤ 10 then (initial_timestamp : Int) - c2 * secondsPerDay
    else (initial_timestamp : Int) + c2 * secondsPerDay
  let insurance_end : Int := insurance_start + dur * secondsPerDay
  let row : CaseRow :=
    { id := case_id, type := case_type, state := "Start", approved := false,
      value := value, avg_time := 0, insuranceCreation := insurance_creation,
      insuranceStart := insurance_start, insuranceEnd := insurance_end }
  let s' : EngineState :=
    { s with cur := cur, cases_ids := s.cases_ids ++ [case_id],
             caseRows := s.caseRows ++ [row], ri := r1 + 15 }
  if case_type = "Policy onboarding" then
    (s', [.ingresar_tramite, .registro_de_compromiso])
  else if case_type = "Renewal" then
    let rn := 1 + draws s'.ri % 100
    let s'' := take_draw s'
    if rn ≤ 50 then (s'', [.visado, .registro_de_compromiso])
    else (s'', [.registro_de_compromiso])
  else
    (s', [.registro_de_compromiso])

/-- `start` (lines 94-147): allocate a fresh case id, then run the body. -/
def stepStart (draws : Nat → Nat) (fuel : Nat) (s : EngineState) :
    Option (EngineState × List Instr) :=
  (new_case_id draws fuel (s.ri + 1) s.cases_ids).map
    (fun p => stepStartWith draws p.1 p.2 s)

/-- The body of every handler other than `start`; each case mirrors the
corresponding method of the source line by line.  These methods are only ever
invoked on the case object created by `start`. -/
def stepCase (delays draws : Nat → Nat) (now fuel : Nat) (i : Instr)
    (s : EngineState) : Option (EngineState × List Instr) :=
  match i with
  | .start => none
  | .ingresar_tramite =>
    let s := update_case delays "Ingresar tramite" s
    some (s, [.registrar_PO])
  | .registrar_PO =>
    let s := update_case delays "Registrar PO" s
    let rand_num := 1 + draws s.ri % 100
    let s := take_draw s
    if rand_num ≤ 10 then
      let s := update_case delays "Devolucion al brocker del caso (Revision Brocker)" s
      (create_rework draws "Registrar PO" s).map (fun s => (s, [.registrar_PO]))
    else
      let s := update_case delays "Enviar a emision" s
      some (s, [.revision_emision])
  | .registro_de_compromiso =>
    let s := update_case delays "Registro de compromiso" s
    some (s, [.enviar_revision_suscripcion])
  | .enviar_revision_suscripcion =>
    let s := update_case delays "Enviar a Revisión suscripción" s
    let rand_num := 1 + draws s.ri % 100
    let s := take_draw s
    if rand_num ≤ 50 then some (s, [.validar_info_enviada])
    else some (s, [.revision_suscripcion])
  | .validar_info_enviada =>
    let s := update_case delays "Validar info enviada" s
    let rand_num := 1 + draws s.ri % 100
    let s := take_draw s
    if rand_num ≤ 10 then
      let s := update_case delays "Devolver caso a Comercial" s
      (create_rework draws "Enviar a Revisión suscripción" s).map
        (fun s => (s, [.enviar_revision_suscripcion]))
    else
      some (s, [.revision_suscripcion])
  | .revision_suscripcion =>
    let s := update_case delays "Revisión en suscripción" s
    let rand_num := 1 + draws s.ri % 50
    let s := take_draw s
    if rand_num ≤ 10 then
      let s := update_case delays "Realizar devolucion desde suscripcion" s
      (create_rework draws "Enviar a Revisión suscripción" s).map
        (fun s => (s, [.enviar_revision_suscripcion, .revision_suscripcion_tail]))
    else if rand_num ≤ 50 then
      let s := update_case delays "Enviar a suscripcion local" s
      some (s, [.revision_suscripcion_tail])
    else
      some (s, [.revision_suscripcion_tail])
  | .revision_suscripcion_tail =>
    let rand_num := 1 + draws s.ri % 100
    let s := take_draw s
    if rand_num ≤ 10 then
      let s := update_case delays "Declinar solicitud en suscripcion" s
      some (s, [])
    else
      some (s, [.aprobar_suscripcion_local])
  | .aprobar_suscripcion_local =>
    let s := update_case delays "Aprobar solicitud en suscripcion local" s
    let s := update_case delays "Enviar respuesta al area comercial" s
    let rand_num := 1 + draws s.ri % 100
    let s := take_draw s
    if rand_num ≤ 33 then
      let s := update_case delays "Rechazar (perdida) por parte del Brocker" s
      some (s, [])
    else if rand_num ≤ 66 then
      let s := update_case delays "Declinar por parte del Brocker" s
      some (s, [])
    else
      some (s, [.aceptar_brocker])
  | .aceptar_brocker =>
    let s := update_case delays "Aceptar (ganado) por parte del Brocker" s
    some (s, [.visado])
  | .visado =>
    let s := update_case delays "Visado" s
    let rand_num := 1 + draws s.ri % 100
    let s := take_draw s
    if rand_num ≤ 10 then
      let s := update_case delays "Devolucion a comercial desde visado" s
      (create_rework draws "Visado" s).map (fun s => (s, [.visado]))
    else
      some (s, [.revision_emision])
  | .revision_emision =>
    let s := update_case delays "Revisión en emisión" s
    let rand_num := 1 + draws s.ri % 100
    let s := take_draw s
    if rand_num ≤ 10 then
      let s := update_case delays "Devolucion a comercial desde emisión" s
      (create_rework draws "Revisión en emisión" s).map
        (fun s => (s, [.revision_emision]))
    else if rand_num ≤ 20 then
      let s := update_case delays "Devolucion a visado desde emisión" s
      (create_rework draws "Visado" s).map (fun s => (s, [.visado]))
    else if rand_num ≤ 50 then
      let s := update_case delays "Control de calidad documental" s
      let s := update_case delays "Devolucion a emision de control de calidad" s
      some (s, [.iniciar_facturacion])
    else
      some (s, [.iniciar_facturacion])
  | .iniciar_facturacion =>
    let s := update_case delays "Iniciar facturación" s
    let s := update_case delays "Generar Factura" s
    match billLoop now s.cur.value s.cur.case_id fuel s.cur.last_timestamp with
    | none => none
    | some bs =>
      let s := add_bills bs s
      let s := update_case delays "Contabilizar Factura" s
      let s := update_case delays "Generar poliza" s
      let s := update_case delays "Enviar factura electronica" s
      let s := update_case delays "Respuesta SRI" s
      let s := update_case delays "Enviar poliza electronica" s
      let s := update_case delays "Firma poliza electronica por parte del cliente" s
      some (s, [.finalizar_poliza_factura_cliente])
  | .finalizar_poliza_factura_cliente =>
    let s := update_case delays "Finalizar envio poliza y factura al cliente" s
    let rand_num := 1 + draws s.ri % 100
    let s := take_draw s
    if rand_num ≤ 80 then
      let s := update_case delays "Finalizar proceso de emision" s
      let s := update_case delays "Recepcion pago" s
      some (approve_case s, [])
    else if rand_num ≤ 90 then
      let s := update_case delays "Devolucion a emision (corregir informacion)" s
      (create_rework draws "Finalizar envio poliza y factura al cliente" s).map
        (fun s => (s, [.finalizar_poliza_factura_cliente]))
    else
      let s := update_case delays "Devolucion a comercial (corregir informacion)" s
      (create_rework draws "Finalizar envio poliza y factura al cliente" s).map
        (fun s => (s, [.finalizar_poliza_factura_cliente]))

/-- One step of the machine: `start` builds a fresh case; every other handler
operates on a case previously created by `start` (made explicit by the
`cases_ids` membership guard, which holds on every reachable invocation). -/
def step (delays draws : Nat → Nat) (now fuel : Nat) (i : Instr)
    (s : EngineState) : Option (EngineState × List Instr) :=
  match i with
  | .start => stepStart draws fuel s
  | i =>
    if s.cur.case_id ∈ s.cases_ids then stepCase delays draws now fuel i s
    else none

/-- Run the machine on a worklist of instructions; a step's continuation
instructions are executed before the rest of the worklist (call-before-return
order of the source's recursion).  Fuel bounds the number of steps, since the
rework loops are probabilistically but not structurally terminating. -/
def exec (delays draws : Nat → Nat) (now : Nat) :
    Nat → List Instr → EngineState → Option EngineState
  | _, [], s => some s
  | 0, _ :: _, _ => none
  | fuel + 1, i :: k, s =>
    match step delays draws now fuel i s with
    | none => none
    | some (s', is) => exec delays draws now fuel (is ++ k) s'

/-- The state before the first case: no rows, no ids, a dummy current case. -/
def initState : EngineState :=
  { cur := default, caseRows := [], cases_ids := [], acts := [], reworks := [],
    bills := [], di := 0, ri := 0 }

/-- The driver loop of `handle` (lines 762-770), generalized from 1000 to `n`
sequential `start()` calls. -/
def runCases (delays draws : Nat → Nat) (now fuel n : Nat) : Option EngineState :=
  exec delays draws now fuel (List.replicate n .start) initState

/-! ## Post-Processing Analytics (create_data.py lines 548-759)

These run once over the complete activity set and are pure functions of it. -/

/-- Accumulate first occurrences in encounter order: the
`if x not in acc: acc.append(x)` idiom of `create_variants` (lines 590-591)
and the `.distinct()` of `add_TPT`. -/
def dedupAppend {α : Type} [DecidableEq α] (l : List α) : List α :=
  l.foldl (fun acc x => if x ∈ acc then acc else acc ++ [x]) []

/-- The case ids in first-appearance order over the activity iteration
(`cases` in `create_variants`). -/
def casesOf (acts : List Act) : List Nat :=
  dedupAppend (acts.map (fun a => a.caseId))

/-- The ordered activity-name sequence of one case
(`variants[case_id]` in `create_variants`). -/
def seqOf (acts : List Act) (c : Nat) : List String :=
  (acts.filter (fun a => a.caseId = c)).map (fun a => a.name)

/-- The activity timestamps of one case (`timesPerCase[case_id]`). -/
def timesOf (acts : List Act) (c : Nat) : List Nat :=
  (acts.filter (fun a => a.caseId = c)).map (fun a => a.ts)

/-- The distinct activity-name sequences in first-appearance order: the keys
of `grouped_data` (lines 607-612; Python dicts iterate in insertion order). -/
def variantKeys (acts : List Act) : List (List String) :=
  dedupAppend ((casesOf acts).map (seqOf acts))

/-- `(times[-1] - times[0]).total_seconds()` after `times.sort()`
(lines 621-623): span of a case's timestamps. -/
def durationOf (acts : List Act) (c : Nat) : Int :=
  let times := (timesOf acts c).mergeSort (· ≤ ·)
  ((times.getLastD 0 : Int) - (times.headD 0 : Int))

/-- One row of the `Variant` table. -/
structure VariantRec where
  activities : List String
  cases : List Nat
  number_cases : Nat
  percentage : ℚ
  avg_time : ℚ
deriving Repr, DecidableEq, Inhabited

/-- `create_variants` (lines 548-633): group the cases by their exact ordered
activity-name sequence and compute count, percentage of all cases, and mean
per-case duration for every group. -/
def createVariants (acts : List Act) : List VariantRec :=
  (variantKeys acts).map (fun key =>
    let value := (casesOf acts).filter (fun c => seqOf acts c = key)
    let number_cases := value.length
    let percentage : ℚ := ((number_cases : ℚ) / ((casesOf acts).length : ℚ)) * 100
    let mean_time : ℚ := ((value.map (fun c => durationOf acts c)).sum : ℚ) / (number_cases : ℚ)
    { activities := key, cases := value, number_cases := number_cases,
      percentage := percentage, avg_time := mean_time })

/-- Stable insertion of an activity into a timestamp-sorted list. -/
def insertTs (a : Act) : List Act → List Act
  | [] => [a]
  | b :: bs => if a.ts ≤ b.ts then a :: b :: bs else b :: insertTs a bs

/-- Stable sort by timestamp: the `order_by('timestamp')` of `add_TPT` and
`add_time_to_cases`. -/
def sortTs : List Act → List Act
  | [] => []
  | a :: acts => insertTs a (sortTs acts)

/-- The `tpt` updates computed by `add_TPT` (lines 635-666): per distinct
`case_index`, order the activities by timestamp and assign every non-final
activity the seconds to its successor, keyed by the activity's primary key. -/
def tptAssignments (acts : List Act) : List (Nat × Int) :=
  (dedupAppend (acts.map (fun a => a.caseIndex))).flatMap (fun index =>
    let group := sortTs (acts.filter (fun a => a.caseIndex = index))
    (List.range (group.length - 1)).map (fun i =>
      ((group.getD i default).id,
        ((group.getD (i + 1) default).ts : Int) - ((group.getD i default).ts : Int))))

/-- One keyed `tpt` update
(`Activity.objects.filter(id=current_id).update(tpt=time_diff)`). -/
def tptUpd (assigns : List (Nat × Int)) (a : Act) : Act :=
  match assigns.find? (fun p => p.1 = a.id) with
  | some p => { a with tpt := p.2 }
  | none => a

/-- Apply the keyed `tpt` updates to the activity set. -/
def applyTpt (assigns : List (Nat × Int)) (acts : List Act) : List Act :=
  acts.map (tptUpd assigns)

/-- `add_TPT` as a transformation of the persisted activity set. -/
def addTPT (acts : List Act) : List Act :=
  applyTpt (tptAssignments acts) acts

/-- `add_time_to_cases` (lines 736-759) for one case: last-minus-first
activity timestamp after ordering by timestamp; the source crashes on a case
without activities (`first()`/`last()` are `None`), modelled as `none`. -/
def avgTimeOf (acts : List Act) (c : Nat) : Option Int :=
  let ordered := sortTs (acts.filter (fun a => a.caseId = c))
  match ordered.head?, ordered.getLast? with
  | some first, some last => some ((last.ts : Int) - (first.ts : Int))
  | _, _ => none

/-! ## The run invariant

`Inv R s` collects the facts preserved by every step of the engine.  The
relation `R` on consecutive per-case timestamps is instantiated with `≤`
unconditionally and with `<` when every delay draw is positive. -/

structure Inv (R : Nat → Nat → Prop) (s : EngineState) : Prop where
  idx_eq : ∀ a ∈ s.acts, a.caseIndex = a.caseId
  ts_le : ∀ a ∈ s.acts, a.caseId = s.cur.case_id → a.ts ≤ s.cur.last_timestamp
  chain : ∀ c, List.Chain' R (timesOf s.acts c)
  mem_ids : ∀ a ∈ s.acts, a.caseId ∈ s.cases_ids
  cost_nonneg : ∀ r ∈ s.reworks, 0 ≤ r.cost
  approved_pago : ∀ row ∈ s.caseRows, row.approved = true →
    ∃ a ∈ s.acts, a.caseId = row.id ∧ a.name = "Recepcion pago"

/-- Every case of the run has recorded a 'Registro de compromiso' activity. -/
def RegOK (s : EngineState) : Prop :=
  ∀ cid ∈ s.cases_ids,
    "Registro de compromiso" ∈
      (s.acts.filter (fun a => a.caseId = cid)).map (fun a => a.name)

/-! ## Concrete runs used as counterexamples and witnesses

`constDelay` is a delay stream of one second per transition; the draw streams
below force the branch outcomes described next to each. -/

def constDelay : Nat → Nat := fun _ => 1

/-- One `Issuance` case through the all-direct, all-success path:
type draw 1 (Issuance), fresh id 1, subscription branch direct (50),
`revision_suscripcion` non-rework (10 → rand 11), tail non-decline (10),
broker accept (66), `visado` direct (10), `revision_emision` direct (50),
finalization success (0). -/
def c2draws : Nat → Nat := fun i =>
  [1, 0, 0, 0, 0, 0, 0, 0, 0, 0, 0, 0, 0, 0, 0, 0, 0,
   50, 10, 10, 66, 10, 50, 0].getD i 0

def c2final : EngineState := (runCases constDelay c2draws 0 100 1).getD initState

/-- One `Policy onboarding` case: the onboarding flow runs to its success
terminal (approved, 'Recepcion pago'), and then `start` still calls
`registro_de_compromiso`, whose subscription flow ends in a decline. -/
def c1draws : Nat → Nat := fun i =>
  [2, 0, 0, 0, 0, 0, 0, 0, 0, 0, 0, 0, 0, 0, 0, 0, 0,
   10, 50, 0, 50, 10, 0].getD i 0

def c1final : EngineState := (runCases constDelay c1draws 0 100 1).getD initState

/-- One `Issuance` case where `revision_suscripcion` takes the rework branch;
after the rework recursion returns (ending in a decline), the fall-through
decline/approve draw of the outer visit still runs and declines again. -/
def c3draws : Nat → Nat := fun i =>
  [1, 0, 0, 0, 0, 0, 0, 0, 0, 0, 0, 0, 0, 0, 0, 0, 0,
   50, 0, 0, 50, 10, 0, 0].getD i 0

def c3final : EngineState := (runCases constDelay c3draws 0 100 1).getD initState

/-- Like `c2draws` but the id draw is 6, so the case id is 7 while the case's
insertion index within the run is 0. -/
def c6draws : Nat → Nat := fun i =>
  [1, 6, 0, 0, 0, 0, 0, 0, 0, 0, 0, 0, 0, 0, 0, 0, 0,
   50, 10, 10, 66, 10, 50, 0].getD i 0

def c6final : EngineState := (runCases constDelay c6draws 0 100 1).getD initState

/-- Like `c2draws` but the first finalization draw is 80 (rand 81: the
return-to-emission rework branch), then a cause draw, then success. -/
def c4draws : Nat → Nat := fun i =>
  [1, 0, 0, 0, 0, 0, 0, 0, 0, 0, 0, 0, 0, 0, 0, 0, 0,
   50, 10, 10, 66, 10, 50, 80, 0, 0].getD i 0

def c4final : EngineState := (runCases constDelay c4draws 0 100 1).getD initState

/-- A state as left by `start` for case id 1, used to exercise a single
`revision_suscripcion` step. -/
def rsState : EngineState :=
  { cur := { (default : CaseObj) with case_id := 1, last_timestamp := 1000 },
    caseRows := [{ (default : CaseRow) with id := 1 }], cases_ids := [1],
    acts := [], reworks := [], bills := [], di := 0, ri := 0 }

/-- Draw stream for the single-step witness: the first `revision_suscripcion`
draw is 10 (rand 11: no rework, proceed to 'Enviar a suscripcion local'). -/
def rsDraws : Nat → Nat := fun _ => 10

def rsOut : EngineState × List Instr :=
  (stepCase constDelay rsDraws 0 10 .revision_suscripcion rsState).getD (initState, [])

/-! ## General list helpers -/

theorem mem_of_getLast?_eq_some {α : Type} {l : List α} {a : α}
    (h : l.getLast? = some a) : a ∈ l := by
  induction l with
  | nil => simp at h
  | cons x t ih =>
    cases t with
    | nil => simp_all
    | cons y u =>
      rw [List.getLast?_cons_cons] at h
      exact List.mem_cons_of_mem _ (ih h)

theorem chain'_le_getLast {α : Type} {f : α → Nat} {l : List α} {b : α}
    (h : List.Chain' (fun x y => f x ≤ f y) l)
    (hb : l.getLast? = some b) : ∀ a ∈ l, f a ≤ f b := by
  induction l with
  | nil => intro a ha; cases ha
  | cons x t ih =>
    cases t with
    | nil =>
      intro a ha
      rcases List.mem_cons.mp ha with rfl | h'
      · simp_all
      · cases h'
    | cons y u =>
      rw [List.getLast?_cons_cons] at hb
      rw [List.chain'_cons] at h
      intro a ha
      rcases List.mem_cons.mp ha with rfl | ha'
      · exact le_trans h.1 (ih h.2 hb y (List.mem_cons_self y u))
      · exact ih h.2 hb a ha'

/-! ## Basic facts about the primitives -/

theorem update_case_acts (delays : Nat → Nat) (a : String) (s : EngineState) :
    (update_case delays a s).acts
      = s.acts ++ [{ id := s.acts.length, caseId := s.cur.case_id, name := a,
                     ts := s.cur.last_timestamp + delays s.di,
                     caseIndex := s.cur.case_id, tpt := 0 }] := rfl

theorem update_case_case_id (delays : Nat → Nat) (a : String) (s : EngineState) :
    (update_case delays a s).cur.case_id = s.cur.case_id := rfl

theorem update_case_last_ts (delays : Nat → Nat) (a : String) (s : EngineState) :
    (update_case delays a s).cur.last_timestamp
      = s.cur.last_timestamp + delays s.di := rfl

theorem update_case_cases_ids (delays : Nat → Nat) (a : String) (s : EngineState) :
    (update_case delays a s).cases_ids = s.cases_ids := rfl

theorem update_case_reworks (delays : Nat → Nat) (a : String) (s : EngineState) :
    (update_case delays a s).reworks = s.reworks := rfl

theorem create_rework_some {draws : Nat → Nat} {t : String} {s s' : EngineState}
    (h : create_rework draws t s = some s') :
    ∃ activity, (case_activities s).getLast? = some activity ∧
      s' = { s with
              reworks := s.reworks ++
                [{ caseId := s.cur.case_id, activityName := activity.name,
                   activityTs := activity.ts,
                   cost := rework_cost s activity t, target := t,
                   cause := draws s.ri % 7 }],
              ri := s.ri + 1 } := by
  unfold create_rework at h
  cases hL : (case_activities s).getLast? with
  | none => rw [hL] at h; cases h
  | some activity =>
    rw [hL] at h
    injection h with h2
    exact ⟨activity, rfl, h2.symm⟩

theorem timesOf_append (l₁ l₂ : List Act) (c : Nat) :
    timesOf (l₁ ++ l₂) c = timesOf l₁ c ++ timesOf l₂ c := by
  simp [timesOf, List.filter_append]

theorem mem_timesOf {acts : List Act} {c x : Nat} (h : x ∈ timesOf acts c) :
    ∃ a ∈ acts, a.caseId = c ∧ a.ts = x := by
  rcases List.mem_map.mp h with ⟨a, ha, rfl⟩
  rcases List.mem_filter.mp ha with ⟨ha', hc⟩
  exact ⟨a, ha', by simpa using hc, rfl⟩

theorem new_case_id_fresh {draws : Nat → Nat} :
    ∀ {fuel ri : Nat} {ids : List Nat} {cid r' : Nat},
      new_case_id draws fuel ri ids = some (cid, r') → cid ∉ ids := by
  intro fuel
  induction fuel with
  | zero => intro ri ids cid r' h; cases h
  | succ fuel ih =>
    intro ri ids cid r' h
    simp only [new_case_id] at h
    split at h
    · exact ih h
    · rename_i hmem
      cases h
      exact hmem

theorem Inv.imp {R S : Nat → Nat → Prop} {s : EngineState}
    (hRS : ∀ x y, R x y → S x y) (h : Inv R s) : Inv S s :=
  ⟨h.idx_eq, h.ts_le, fun c => (h.chain c).imp (fun _ _ => hRS _ _),
   h.mem_ids, h.cost_nonneg, h.approved_pago⟩

theorem inv_initState (R : Nat → Nat → Prop) : Inv R initState := by
  refine ⟨?_, ?_, ?_, ?_, ?_, ?_⟩ <;> intros <;> simp_all [initState, timesOf]

section Preservation

variable {R : Nat → Nat → Prop} {delays draws : Nat → Nat}

theorem inv_update_case
    (hmono : ∀ (x y i : Nat), x ≤ y → R x (y + delays i))
    {s : EngineState} (a : String)
    (hcur : s.cur.case_id ∈ s.cases_ids) (h : Inv R s) :
    Inv R (update_case delays a s) := by
  set A : Act := { id := s.acts.length, caseId := s.cur.case_id, name := a,
                   ts := s.cur.last_timestamp + delays s.di,
                   caseIndex := s.cur.case_id, tpt := 0 } with hA
  have hacts : (update_case delays a s).acts = s.acts ++ [A] := rfl
  refine ⟨?_, ?_, ?_, ?_, ?_, ?_⟩
  · intro x hx
    rw [hacts] at hx
    rcases List.mem_append.mp hx with hx | hx
    · exact h.idx_eq x hx
    · rw [List.mem_singleton.mp hx]
  · intro x hx hid
    rw [hacts] at hx
    rw [update_case_last_ts]
    rcases List.mem_append.mp hx with hx | hx
    · exact le_trans (h.ts_le x hx hid) (Nat.le_add_right _ _)
    · rw [List.mem_singleton.mp hx]
  · intro c
    rw [hacts, timesOf_append]
    by_cases hc : s.cur.case_id = c
    · have hsing : timesOf [A] c = [A.ts] := by
        simp [timesOf, hA, hc]
      rw [hsing]
      refine List.chain'_append.mpr ⟨h.chain c, List.chain'_singleton _, ?_⟩
      intro x hx y hy
      rcases mem_timesOf (mem_of_getLast?_eq_some hx) with ⟨act, hact, hcid, rfl⟩
      simp only [List.head?_cons, Option.mem_def, Option.some.injEq] at hy
      subst hy
      exact hmono _ _ s.di (h.ts_le act hact (hcid.trans hc.symm))
    · have hsing : timesOf [A] c = [] := by
        simp [timesOf, hA, hc]
      rw [hsing, List.append_nil]
      exact h.chain c
  · intro x hx
    rw [hacts] at hx
    rw [update_case_cases_ids]
    rcases List.mem_append.mp hx with hx | hx
    · exact h.mem_ids x hx
    · rw [List.mem_singleton.mp hx]; exact hcur
  · exact h.cost_nonneg
  · intro row hrow happ
    have hrows : (update_case delays a s).caseRows = s.caseRows.map
        (fun r => if r.id = s.cur.case_id then { r with state := a } else r) := rfl
    rw [hrows] at hrow
    rcases List.mem_map.mp hrow with ⟨r0, hr0, rfl⟩
    have happ0 : r0.approved = true := by
      by_cases hid : r0.id = s.cur.case_id <;> simp [hid] at happ <;> exact happ
    have hid_eq :
        (if r0.id = s.cur.case_id then { r0 with state := a } else r0).id = r0.id := by
      by_cases hid : r0.id = s.cur.case_id <;> simp [hid]
    rcases h.approved_pago r0 hr0 happ0 with ⟨act, hact, hcid, hname⟩
    refine ⟨act, ?_, ?_, hname⟩
    · rw [hacts]; exact List.mem_append_left _ hact
    · rw [hid_eq]; exact hcid

theorem rework_cost_nonneg
    (hle : ∀ x y, R x y → x ≤ y)
    {s : EngineState} {activity : Act} (target : String)
    (h : Inv R s)
    (hlast : (case_activities s).getLast? = some activity) :
    0 ≤ rework_cost s activity target := by
  unfold rework_cost
  cases hF : (case_activities s).find? (fun a => a.name = target) with
  | none => simp
  | some ra =>
    have hmem := List.mem_of_find?_eq_some hF
    have hch : List.Chain' (fun x y : Act => x.ts ≤ y.ts) (case_activities s) := by
      have := (h.chain s.cur.case_id).imp (fun x y => hle x y)
      rw [show timesOf s.acts s.cur.case_id
            = (case_activities s).map (fun a => a.ts) from rfl] at this
      exact (List.chain'_map _).mp this
    have := chain'_le_getLast hch hlast ra hmem
    simp only [rework_cost]
    omega

theorem inv_create_rework
    (hle : ∀ x y, R x y → x ≤ y)
    {s s' : EngineState} {t : String}
    (h : Inv R s) (hcr : create_rework draws t s = some s') : Inv R s' := by
  rcases create_rework_some hcr with ⟨activity, hlast, rfl⟩
  refine ⟨h.idx_eq, h.ts_le, h.chain, h.mem_ids, ?_, h.approved_pago⟩
  intro r hr
  rcases List.mem_append.mp hr with hr | hr
  · exact h.cost_nonneg r hr
  · rw [List.mem_singleton.mp hr]
    exact rework_cost_nonneg hle t h hlast

theorem inv_of_eq {s t : EngineState} (h : Inv R s)
    (hc : t.cur = s.cur) (hrows : t.caseRows = s.caseRows)
    (hids : t.cases_ids = s.cases_ids) (hacts : t.acts = s.acts)
    (hrw : t.reworks = s.reworks) : Inv R t := by
  refine ⟨?_, ?_, ?_, ?_, ?_, ?_⟩
  · rw [hacts]; exact h.idx_eq
  · rw [hacts, hc]; exact h.ts_le
  · rw [hacts]; exact h.chain
  · rw [hacts, hids]; exact h.mem_ids
  · rw [hrw]; exact h.cost_nonneg
  · rw [hrows, hacts]; exact h.approved_pago

theorem inv_approve_case {s : EngineState}
    (hpago : ∃ a ∈ s.acts, a.caseId = s.cur.case_id ∧ a.name = "Recepcion pago")
    (h : Inv R s) : Inv R (approve_case s) := by
  refine ⟨h.idx_eq, h.ts_le, h.chain, h.mem_ids, h.cost_nonneg, ?_⟩
  intro row hrow happ
  simp only [approve_case] at hrow
  rcases List.mem_map.mp hrow with ⟨r0, hr0, rfl⟩
  by_cases hid : r0.id = s.cur.case_id
  · rcases hpago with ⟨act, hact, hcid, hname⟩
    refine ⟨act, hact, ?_, hname⟩
    simp [hid, hcid]
  · simp only [hid, reduceIte] at happ ⊢
    exact h.approved_pago r0 hr0 happ

theorem stepStart_char {fuel : Nat} {s s' : EngineState} {is : List Instr}
    (h : stepStart draws fuel s = some (s', is)) :
    ∃ cid r1, new_case_id draws fuel (s.ri + 1) s.cases_ids = some (cid, r1) ∧
      s'.acts = s.acts ∧ s'.reworks = s.reworks ∧
      s'.cases_ids = s.cases_ids ++ [cid] ∧
      s'.cur.case_id = cid ∧
      s'.cur.type = caseTypes.getD (draws s.ri % 3) "" ∧
      (∃ row : CaseRow, s'.caseRows = s.caseRows ++ [row] ∧ row.approved = false ∧
        row.id = cid) ∧
      (is = [.ingresar_tramite, .registro_de_compromiso] ∨
       is = [.visado, .registro_de_compromiso] ∨ is = [.registro_de_compromiso]) ∧
      (caseTypes.getD (draws s.ri % 3) "" = "Policy onboarding" →
        is = [.ingresar_tramite, .registro_de_compromiso]) ∧
      (caseTypes.getD (draws s.ri % 3) "" = "Renewal" →
        (is = [.visado, .registro_de_compromiso] ↔ 1 + draws (r1 + 15) % 100 ≤ 50)) ∧
      (caseTypes.getD (draws s.ri % 3) "" ≠ "Policy onboarding" →
        caseTypes.getD (draws s.ri % 3) "" ≠ "Renewal" →
        is = [.registro_de_compromiso]) := by
  rcases Option.map_eq_some'.mp h with ⟨⟨cid, r1⟩, hN, heq⟩
  refine ⟨cid, r1, hN, ?_⟩
  simp only [stepStartWith] at heq
  split at heq
  · rename_i hPO
    obtain ⟨rfl, rfl⟩ := (Prod.mk.injEq _ _ _ _).mp heq
    refine ⟨rfl, rfl, rfl, rfl, rfl, ⟨_, rfl, rfl, rfl⟩, Or.inl rfl, fun _ => rfl,
      fun hR => absurd (hPO.symm.trans hR)
        (by decide : ¬ (("Policy onboarding" : String) = "Renewal")), ?_⟩
    intro hnPO _
    exact absurd hPO hnPO
  · rename_i hnPO
    split at heq
    · rename_i hRen
      split at heq
      · obtain ⟨rfl, rfl⟩ := (Prod.mk.injEq _ _ _ _).mp heq
        rename_i h50
        refine ⟨rfl, rfl, rfl, rfl, rfl, ⟨_, rfl, rfl, rfl⟩, Or.inr (Or.inl rfl),
          fun hPO => absurd hPO hnPO, fun _ => ⟨fun _ => h50, fun _ => rfl⟩, ?_⟩
        intro _ hnR
        exact absurd hRen hnR
      · obtain ⟨rfl, rfl⟩ := (Prod.mk.injEq _ _ _ _).mp heq
        rename_i h50
        refine ⟨rfl, rfl, rfl, rfl, rfl, ⟨_, rfl, rfl, rfl⟩, Or.inr (Or.inr rfl),
          fun hPO => absurd hPO hnPO, fun _ => ⟨fun hcontra => ?_, fun hcontra => ?_⟩, ?_⟩
        · cases hcontra
        · exact absurd hcontra h50
        · intro _ _
          rfl
    · rename_i hnRen
      obtain ⟨rfl, rfl⟩ := (Prod.mk.injEq _ _ _ _).mp heq
      refine ⟨rfl, rfl, rfl, rfl, rfl, ⟨_, rfl, rfl, rfl⟩, Or.inr (Or.inr rfl),
        fun hPO => absurd hPO hnPO, fun hR => absurd hR hnRen, fun _ _ => rfl⟩

theorem inv_stepStart {fuel : Nat} {s s' : EngineState} {is : List Instr}
    (h : Inv R s) (hs : stepStart draws fuel s = some (s', is)) :
    Inv R s' ∧ s'.cur.case_id ∈ s'.cases_ids := by
  rcases stepStart_char hs with
    ⟨cid, r1, hN, hacts, hrw, hids, hcid, -, ⟨row, hrows, happf, -⟩, -⟩
  have hfresh : cid ∉ s.cases_ids := new_case_id_fresh hN
  constructor
  · refine ⟨?_, ?_, ?_, ?_, ?_, ?_⟩
    · rw [hacts]; exact h.idx_eq
    · intro a ha hid
      rw [hacts] at ha
      have hmem := h.mem_ids a ha
      rw [hid, hcid] at hmem
      exact absurd hmem hfresh
    · intro c; rw [hacts]; exact h.chain c
    · intro a ha
      rw [hacts] at ha
      rw [hids]
      exact List.mem_append_left _ (h.mem_ids a ha)
    · rw [hrw]; exact h.cost_nonneg
    · intro r hr happ
      rw [hrows] at hr
      rcases List.mem_append.mp hr with hr | hr
      · rcases h.approved_pago r hr happ with ⟨act, hact, hc, hn⟩
        exact ⟨act, hacts ▸ hact, hc, hn⟩
      · rw [List.mem_singleton.mp hr] at happ
        rw [happf] at happ
        cases happ
  · rw [hids, hcid]
    exact List.mem_append_right _ (List.mem_singleton_self _)

theorem inv_take_draw {s : EngineState} (h : Inv R s) : Inv R (take_draw s) :=
  ⟨h.idx_eq, h.ts_le, h.chain, h.mem_ids, h.cost_nonneg, h.approved_pago⟩

theorem inv_add_bills {s : EngineState} (bs : List BillRec) (h : Inv R s) :
    Inv R (add_bills bs s) :=
  ⟨h.idx_eq, h.ts_le, h.chain, h.mem_ids, h.cost_nonneg, h.approved_pago⟩

theorem inv_stepCase
    (hmono : ∀ (x y i : Nat), x ≤ y → R x (y + delays i))
    (hle : ∀ x y, R x y → x ≤ y)
    {now fuel : Nat} {i : Instr} {s s' : EngineState} {is : List Instr}
    (hcur : s.cur.case_id ∈ s.cases_ids) (h : Inv R s)
    (hstep : stepCase delays draws now fuel i s = some (s', is)) : Inv R s' := by
  cases i with
  | start => cases hstep
  | ingresar_tramite =>
    simp only [stepCase] at hstep
    obtain ⟨rfl, rfl⟩ := (Prod.mk.injEq _ _ _ _).mp ((Option.some.injEq _ _).mp hstep)
    exact inv_update_case hmono _ hcur h
  | registrar_PO =>
    simp only [stepCase] at hstep
    split at hstep
    · rcases Option.map_eq_some'.mp hstep with ⟨s₁, hcr, heq⟩
      obtain ⟨rfl, rfl⟩ := (Prod.mk.injEq _ _ _ _).mp heq
      refine inv_create_rework hle ?_ hcr
      apply inv_update_case hmono
      · exact hcur
      · exact inv_take_draw (inv_update_case hmono _ hcur h)
    · obtain ⟨rfl, rfl⟩ := (Prod.mk.injEq _ _ _ _).mp ((Option.some.injEq _ _).mp hstep)
      apply inv_update_case hmono
      · exact hcur
      · exact inv_take_draw (inv_update_case hmono _ hcur h)
  | registro_de_compromiso =>
    simp only [stepCase] at hstep
    obtain ⟨rfl, rfl⟩ := (Prod.mk.injEq _ _ _ _).mp ((Option.some.injEq _ _).mp hstep)
    exact inv_update_case hmono _ hcur h
  | enviar_revision_suscripcion =>
    simp only [stepCase] at hstep
    split at hstep <;>
      obtain ⟨rfl, rfl⟩ := (Prod.mk.injEq _ _ _ _).mp ((Option.some.injEq _ _).mp hstep) <;>
      exact inv_take_draw (inv_update_case hmono _ hcur h)
  | validar_info_enviada =>
    simp only [stepCase] at hstep
    split at hstep
    · rcases Option.map_eq_some'.mp hstep with ⟨s₁, hcr, heq⟩
      obtain ⟨rfl, rfl⟩ := (Prod.mk.injEq _ _ _ _).mp heq
      refine inv_create_rework hle ?_ hcr
      apply inv_update_case hmono
      · exact hcur
      · exact inv_take_draw (inv_update_case hmono _ hcur h)
    · obtain ⟨rfl, rfl⟩ := (Prod.mk.injEq _ _ _ _).mp ((Option.some.injEq _ _).mp hstep)
      exact inv_take_draw (inv_update_case hmono _ hcur h)
  | revision_suscripcion =>
    simp only [stepCase] at hstep
    split at hstep
    · rcases Option.map_eq_some'.mp hstep with ⟨s₁, hcr, heq⟩
      obtain ⟨rfl, rfl⟩ := (Prod.mk.injEq _ _ _ _).mp heq
      refine inv_create_rework hle ?_ hcr
      apply inv_update_case hmono
      · exact hcur
      · exact inv_take_draw (inv_update_case hmono _ hcur h)
    · split at hstep <;>
        obtain ⟨rfl, rfl⟩ := (Prod.mk.injEq _ _ _ _).mp ((Option.some.injEq _ _).mp hstep)
      · apply inv_update_case hmono
        · exact hcur
        · exact inv_take_draw (inv_update_case hmono _ hcur h)
      · exact inv_take_draw (inv_update_case hmono _ hcur h)
  | revision_suscripcion_tail =>
    simp only [stepCase] at hstep
    split at hstep <;>
      obtain ⟨rfl, rfl⟩ := (Prod.mk.injEq _ _ _ _).mp ((Option.some.injEq _ _).mp hstep)
    · apply inv_update_case hmono
      · exact hcur
      · exact inv_take_draw h
    · exact inv_take_draw h
  | aprobar_suscripcion_local =>
    simp only [stepCase] at hstep
    split at hstep
    · obtain ⟨rfl, rfl⟩ := (Prod.mk.injEq _ _ _ _).mp ((Option.some.injEq _ _).mp hstep)
      apply inv_update_case hmono
      · exact hcur
      · exact inv_take_draw (inv_update_case hmono _ hcur (inv_update_case hmono _ hcur h))
    · split at hstep <;>
        obtain ⟨rfl, rfl⟩ := (Prod.mk.injEq _ _ _ _).mp ((Option.some.injEq _ _).mp hstep)
      · apply inv_update_case hmono
        · exact hcur
        · exact inv_take_draw (inv_update_case hmono _ hcur (inv_update_case hmono _ hcur h))
      · exact inv_take_draw (inv_update_case hmono _ hcur (inv_update_case hmono _ hcur h))
  | aceptar_brocker =>
    simp only [stepCase] at hstep
    obtain ⟨rfl, rfl⟩ := (Prod.mk.injEq _ _ _ _).mp ((Option.some.injEq _ _).mp hstep)
    exact inv_update_case hmono _ hcur h
  | visado =>
    simp only [stepCase] at hstep
    split at hstep
    · rcases Option.map_eq_some'.mp hstep with ⟨s₁, hcr, heq⟩
      obtain ⟨rfl, rfl⟩ := (Prod.mk.injEq _ _ _ _).mp heq
      refine inv_create_rework hle ?_ hcr
      apply inv_update_case hmono
      · exact hcur
      · exact inv_take_draw (inv_update_case hmono _ hcur h)
    · obtain ⟨rfl, rfl⟩ := (Prod.mk.injEq _ _ _ _).mp ((Option.some.injEq _ _).mp hstep)
      exact inv_take_draw (inv_update_case hmono _ hcur h)
  | revision_emision =>
    simp only [stepCase] at hstep
    split at hstep
    · rcases Option.map_eq_some'.mp hstep with ⟨s₁, hcr, heq⟩
      obtain ⟨rfl, rfl⟩ := (Prod.mk.injEq _ _ _ _).mp heq
      refine inv_create_rework hle ?_ hcr
      apply inv_update_case hmono
      · exact hcur
      · exact inv_take_draw (inv_update_case hmono _ hcur h)
    · split at hstep
      · rcases Option.map_eq_some'.mp hstep with ⟨s₁, hcr, heq⟩
        obtain ⟨rfl, rfl⟩ := (Prod.mk.injEq _ _ _ _).mp heq
        refine inv_create_rework hle ?_ hcr
        apply inv_update_case hmono
        · exact hcur
        · exact inv_take_draw (inv_update_case hmono _ hcur h)
      · split at hstep <;>
          obtain ⟨rfl, rfl⟩ := (Prod.mk.injEq _ _ _ _).mp ((Option.some.injEq _ _).mp hstep)
        · apply inv_update_case hmono
          · exact hcur
          · apply inv_update_case hmono
            · exact hcur
            · exact inv_take_draw (inv_update_case hmono _ hcur h)
        · exact inv_take_draw (inv_update_case hmono _ hcur h)
  | iniciar_facturacion =>
    simp only [stepCase] at hstep
    split at hstep
    · exact Option.noConfusion hstep
    · obtain ⟨rfl, rfl⟩ := (Prod.mk.injEq _ _ _ _).mp ((Option.some.injEq _ _).mp hstep)
      apply inv_update_case hmono
      · exact hcur
      · apply inv_update_case hmono
        · exact hcur
        · apply inv_update_case hmono
          · exact hcur
          · apply inv_update_case hmono
            · exact hcur
            · apply inv_update_case hmono
              · exact hcur
              · apply inv_update_case hmono
                · exact hcur
                · apply inv_add_bills
                  exact inv_update_case hmono _ hcur (inv_update_case hmono _ hcur h)
  | finalizar_poliza_factura_cliente =>
    simp only [stepCase] at hstep
    split at hstep
    · obtain ⟨rfl, rfl⟩ := (Prod.mk.injEq _ _ _ _).mp ((Option.some.injEq _ _).mp hstep)
      apply inv_approve_case
      · exact ⟨_, List.mem_append_right _ (List.mem_singleton_self _), rfl, rfl⟩
      · apply inv_update_case hmono
        · exact hcur
        · apply inv_update_case hmono
          · exact hcur
          · exact inv_take_draw (inv_update_case hmono _ hcur h)
    · split at hstep <;>
        · rcases Option.map_eq_some'.mp hstep with ⟨s₁, hcr, heq⟩
          obtain ⟨rfl, rfl⟩ := (Prod.mk.injEq _ _ _ _).mp heq
          refine inv_create_rework hle ?_ hcr
          apply inv_update_case hmono
          · exact hcur
          · exact inv_take_draw (inv_update_case hmono _ hcur h)

theorem inv_step
    (hmono : ∀ (x y i : Nat), x ≤ y → R x (y + delays i))
    (hle : ∀ x y, R x y → x ≤ y)
    {now fuel : Nat} {i : Instr} {s s' : EngineState} {is : List Instr}
    (h : Inv R s) (hstep : step delays draws now fuel i s = some (s', is)) :
    Inv R s' := by
  cases i with
  | start => exact (inv_stepStart h hstep).1
  | _ =>
    simp only [step] at hstep
    split at hstep
    · exact inv_stepCase hmono hle (by assumption) h hstep
    · exact Option.noConfusion hstep

theorem inv_exec
    (hmono : ∀ (x y i : Nat), x ≤ y → R x (y + delays i))
    (hle : ∀ x y, R x y → x ≤ y)
    {now : Nat} :
    ∀ {fuel : Nat} {k : List Instr} {s s' : EngineState},
      Inv R s → exec delays draws now fuel k s = some s' → Inv R s' := by
  intro fuel
  induction fuel with
  | zero =>
    intro k s s' h hex
    cases k with
    | nil => cases hex; exact h
    | cons i t => cases hex
  | succ fuel ih =>
    intro k s s' h hex
    cases k with
    | nil => cases hex; exact h
    | cons i t =>
      simp only [exec] at hex
      cases hstep : step delays draws now fuel i s with
      | none => rw [hstep] at hex; cases hex
      | some p =>
        rw [hstep] at hex
        exact ih (inv_step hmono hle h hstep) hex

end Preservation

/-! ## The billing loop -/

theorem billLoop_isSome (now value caseId : Nat) :
    ∀ (fuel t : Nat), now - t ≤ fuel → (billLoop now value caseId fuel t).isSome := by
  intro fuel
  induction fuel with
  | zero =>
    intro t h
    have hnot : ¬ t < now := by omega
    simp [billLoop, hnot]
  | succ fuel ih =>
    intro t h
    by_cases hlt : t < now
    · have hrec := ih (t + thirtyDays)
        (by simp only [thirtyDays, secondsPerDay]; omega)
      obtain ⟨bs, hbs⟩ := Option.isSome_iff_exists.mp hrec
      simp [billLoop, hlt, hbs]
    · simp [billLoop, hlt]

theorem billLoop_spec (now value caseId : Nat) :
    ∀ (fuel t : Nat) (bs : List BillRec),
      billLoop now value caseId fuel t = some bs →
      bs = (List.range bs.length).map
        (fun k => { caseId := caseId, value := value, ts := t + k * thirtyDays }) ∧
      bs.length = (now - t + thirtyDays - 1) / thirtyDays := by
  intro fuel
  induction fuel with
  | zero =>
    intro t bs h
    simp only [billLoop] at h
    split at h
    · cases h
    · rename_i hge
      obtain rfl := (Option.some.injEq _ _).mp h
      refine ⟨by simp, ?_⟩
      have h0 : now - t = 0 := by omega
      rw [h0]
      decide
  | succ fuel ih =>
    intro t bs h
    simp only [billLoop] at h
    split at h
    · rename_i hlt
      rcases Option.map_eq_some'.mp h with ⟨bs', hrec, rfl⟩
      obtain ⟨hshape, hlen⟩ := ih (t + thirtyDays) bs' hrec
      constructor
      · rw [List.length_cons, List.range_succ_eq_map, List.map_cons, List.map_map]
        refine List.cons_eq_cons.mpr ⟨by simp, ?_⟩
        conv_lhs => rw [hshape]
        apply List.map_congr_left
        intro k _
        simp only [Function.comp_apply, BillRec.mk.injEq, true_and, thirtyDays,
          secondsPerDay]
        omega
      · rw [List.length_cons, hlen]
        simp only [thirtyDays, secondsPerDay] at *
        omega
    · rename_i hge
      obtain rfl := (Option.some.injEq _ _).mp h
      refine ⟨by simp, ?_⟩
      have h0 : now - t = 0 := by omega
      rw [h0]
      decide

/-! ## Step and run facts used by the trace-structure claims -/

theorem step_facts {delays draws : Nat → Nat} {now fuel : Nat} {i : Instr}
    {s s' : EngineState} {is : List Instr}
    (hstep : step delays draws now fuel i s = some (s', is)) :
    s.acts <+: s'.acts ∧ Instr.start ∉ is ∧
    (i ≠ .start → s'.cur.case_id = s.cur.case_id ∧ s'.cases_ids = s.cases_ids) := by
  cases i with
  | start =>
    rcases stepStart_char hstep with ⟨cid, r1, hN, hacts, -, -, -, -, -, hforms, -⟩
    refine ⟨by rw [hacts], ?_, fun hne => absurd rfl hne⟩
    rcases hforms with rfl | rfl | rfl <;> decide
  | ingresar_tramite =>
    simp only [step] at hstep
    split at hstep
    · simp only [stepCase] at hstep
      obtain ⟨rfl, rfl⟩ := (Prod.mk.injEq _ _ _ _).mp ((Option.some.injEq _ _).mp hstep)
      refine ⟨?_, by decide, fun _ => ⟨rfl, rfl⟩⟩
      dsimp only [update_case, write_in_file, take_draw, add_bills, approve_case]
      simp [List.append_assoc]
    · exact Option.noConfusion hstep
  | registrar_PO =>
    simp only [step] at hstep
    split at hstep
    · simp only [stepCase] at hstep
      split at hstep
      · rcases Option.map_eq_some'.mp hstep with ⟨s₁, hcr, heq⟩
        obtain ⟨rfl, rfl⟩ := (Prod.mk.injEq _ _ _ _).mp heq
        rcases create_rework_some hcr with ⟨activity, -, rfl⟩
        refine ⟨?_, by decide, fun _ => ⟨rfl, rfl⟩⟩
        dsimp only [update_case, write_in_file, take_draw, add_bills, approve_case]
        simp [List.append_assoc]
      · obtain ⟨rfl, rfl⟩ := (Prod.mk.injEq _ _ _ _).mp ((Option.some.injEq _ _).mp hstep)
        refine ⟨?_, by decide, fun _ => ⟨rfl, rfl⟩⟩
        dsimp only [update_case, write_in_file, take_draw, add_bills, approve_case]
        simp [List.append_assoc]
    · exact Option.noConfusion hstep
  | registro_de_compromiso =>
    simp only [step] at hstep
    split at hstep
    · simp only [stepCase] at hstep
      obtain ⟨rfl, rfl⟩ := (Prod.mk.injEq _ _ _ _).mp ((Option.some.injEq _ _).mp hstep)
      refine ⟨?_, by decide, fun _ => ⟨rfl, rfl⟩⟩
      dsimp only [update_case, write_in_file, take_draw, add_bills, approve_case]
      simp [List.append_assoc]
    · exact Option.noConfusion hstep
  | enviar_revision_suscripcion =>
    simp only [step] at hstep
    split at hstep
    · simp only [stepCase] at hstep
      split at hstep <;>
        obtain ⟨rfl, rfl⟩ := (Prod.mk.injEq _ _ _ _).mp ((Option.some.injEq _ _).mp hstep) <;>
        · refine ⟨?_, by decide, fun _ => ⟨rfl, rfl⟩⟩
          dsimp only [update_case, write_in_file, take_draw, add_bills, approve_case]
          simp [List.append_assoc]
    · exact Option.noConfusion hstep
  | validar_info_enviada =>
    simp only [step] at hstep
    split at hstep
    · simp only [stepCase] at hstep
      split at hstep
      · rcases Option.map_eq_some'.mp hstep with ⟨s₁, hcr, heq⟩
        obtain ⟨rfl, rfl⟩ := (Prod.mk.injEq _ _ _ _).mp heq
        rcases create_rework_some hcr with ⟨activity, -, rfl⟩
        refine ⟨?_, by decide, fun _ => ⟨rfl, rfl⟩⟩
        dsimp only [update_case, write_in_file, take_draw, add_bills, approve_case]
        simp [List.append_assoc]
      · obtain ⟨rfl, rfl⟩ := (Prod.mk.injEq _ _ _ _).mp ((Option.some.injEq _ _).mp hstep)
        refine ⟨?_, by decide, fun _ => ⟨rfl, rfl⟩⟩
        dsimp only [update_case, write_in_file, take_draw, add_bills, approve_case]
        simp [List.append_assoc]
    · exact Option.noConfusion hstep
  | revision_suscripcion =>
    simp only [step] at hstep
    split at hstep
    · simp only [stepCase] at hstep
      split at hstep
      · rcases Option.map_eq_some'.mp hstep with ⟨s₁, hcr, heq⟩
        obtain ⟨rfl, rfl⟩ := (Prod.mk.injEq _ _ _ _).mp heq
        rcases create_rework_some hcr with ⟨activity, -, rfl⟩
        refine ⟨?_, by decide, fun _ => ⟨rfl, rfl⟩⟩
        dsimp only [update_case, write_in_file, take_draw, add_bills, approve_case]
        simp [List.append_assoc]
      · split at hstep <;>
          obtain ⟨rfl, rfl⟩ := (Prod.mk.injEq _ _ _ _).mp ((Option.some.injEq _ _).mp hstep) <;>
          · refine ⟨?_, by decide, fun _ => ⟨rfl, rfl⟩⟩
            dsimp only [update_case, write_in_file, take_draw, add_bills, approve_case]
            simp [List.append_assoc]
    · exact Option.noConfusion hstep
  | revision_suscripcion_tail =>
    simp only [step] at hstep
    split at hstep
    · simp only [stepCase] at hstep
      split at hstep <;>
        obtain ⟨rfl, rfl⟩ := (Prod.mk.injEq _ _ _ _).mp ((Option.some.injEq _ _).mp hstep) <;>
        · refine ⟨?_, by decide, fun _ => ⟨rfl, rfl⟩⟩
          dsimp only [update_case, write_in_file, take_draw, add_bills, approve_case]
          simp [List.append_assoc]
    · exact Option.noConfusion hstep
  | aprobar_suscripcion_local =>
    simp only [step] at hstep
    split at hstep
    · simp only [stepCase] at hstep
      split at hstep
      · obtain ⟨rfl, rfl⟩ := (Prod.mk.injEq _ _ _ _).mp ((Option.some.injEq _ _).mp hstep)
        refine ⟨?_, by decide, fun _ => ⟨rfl, rfl⟩⟩
        dsimp only [update_case, write_in_file, take_draw, add_bills, approve_case]
        simp [List.append_assoc]
      · split at hstep <;>
          obtain ⟨rfl, rfl⟩ := (Prod.mk.injEq _ _ _ _).mp ((Option.some.injEq _ _).mp hstep) <;>
          · refine ⟨?_, by decide, fun _ => ⟨rfl, rfl⟩⟩
            dsimp only [update_case, write_in_file, take_draw, add_bills, approve_case]
            simp [List.append_assoc]
    · exact Option.noConfusion hstep
  | aceptar_brocker =>
    simp only [step] at hstep
    split at hstep
    · simp only [stepCase] at hstep
      obtain ⟨rfl, rfl⟩ := (Prod.mk.injEq _ _ _ _).mp ((Option.some.injEq _ _).mp hstep)
      refine ⟨?_, by decide, fun _ => ⟨rfl, rfl⟩⟩
      dsimp only [update_case, write_in_file, take_draw, add_bills, approve_case]
      simp [List.append_assoc]
    · exact Option.noConfusion hstep
  | visado =>
    simp only [step] at hstep
    split at hstep
    · simp only [stepCase] at hstep
      split at hstep
      · rcases Option.map_eq_some'.mp hstep with ⟨s₁, hcr, heq⟩
        obtain ⟨rfl, rfl⟩ := (Prod.mk.injEq _ _ _ _).mp heq
        rcases create_rework_some hcr with ⟨activity, -, rfl⟩
        refine ⟨?_, by decide, fun _ => ⟨rfl, rfl⟩⟩
        dsimp only [update_case, write_in_file, take_draw, add_bills, approve_case]
        simp [List.append_assoc]
      · obtain ⟨rfl, rfl⟩ := (Prod.mk.injEq _ _ _ _).mp ((Option.some.injEq _ _).mp hstep)
        refine ⟨?_, by decide, fun _ => ⟨rfl, rfl⟩⟩
        dsimp only [update_case, write_in_file, take_draw, add_bills, approve_case]
        simp [List.append_assoc]
    · exact Option.noConfusion hstep
  | revision_emision =>
    simp only [step] at hstep
    split at hstep
    · simp only [stepCase] at hstep
      split at hstep
      · rcases Option.map_eq_some'.mp hstep with ⟨s₁, hcr, heq⟩
        obtain ⟨rfl, rfl⟩ := (Prod.mk.injEq _ _ _ _).mp heq
        rcases create_rework_some hcr with ⟨activity, -, rfl⟩
        refine ⟨?_, by decide, fun _ => ⟨rfl, rfl⟩⟩
        dsimp only [update_case, write_in_file, take_draw, add_bills, approve_case]
        simp [List.append_assoc]
      · split at hstep
        · rcases Option.map_eq_some'.mp hstep with ⟨s₁, hcr, heq⟩
          obtain ⟨rfl, rfl⟩ := (Prod.mk.injEq _ _ _ _).mp heq
          rcases create_rework_some hcr with ⟨activity, -, rfl⟩
          refine ⟨?_, by decide, fun _ => ⟨rfl, rfl⟩⟩
          dsimp only [update_case, write_in_file, take_draw, add_bills, approve_case]
          simp [List.append_assoc]
        · split at hstep <;>
            obtain ⟨rfl, rfl⟩ := (Prod.mk.injEq _ _ _ _).mp ((Option.some.injEq _ _).mp hstep) <;>
            · refine ⟨?_, by decide, fun _ => ⟨rfl, rfl⟩⟩
              dsimp only [update_case, write_in_file, take_draw, add_bills, approve_case]
              simp [List.append_assoc]
    · exact Option.noConfusion hstep
  | iniciar_facturacion =>
    simp only [step] at hstep
    split at hstep
    · simp only [stepCase] at hstep
      split at hstep
      · exact Option.noConfusion hstep
      · obtain ⟨rfl, rfl⟩ := (Prod.mk.injEq _ _ _ _).mp ((Option.some.injEq _ _).mp hstep)
        refine ⟨?_, by decide, fun _ => ⟨rfl, rfl⟩⟩
        dsimp only [update_case, write_in_file, take_draw, add_bills, approve_case]
        simp [List.append_assoc]
    · exact Option.noConfusion hstep
  | finalizar_poliza_factura_cliente =>
    simp only [step] at hstep
    split at hstep
    · simp only [stepCase] at hstep
      split at hstep
      · obtain ⟨rfl, rfl⟩ := (Prod.mk.injEq _ _ _ _).mp ((Option.some.injEq _ _).mp hstep)
        refine ⟨?_, by decide, fun _ => ⟨rfl, rfl⟩⟩
        dsimp only [update_case, write_in_file, take_draw, add_bills, approve_case]
        simp [List.append_assoc]
      · split at hstep <;>
          · rcases Option.map_eq_some'.mp hstep with ⟨s₁, hcr, heq⟩
            obtain ⟨rfl, rfl⟩ := (Prod.mk.injEq _ _ _ _).mp heq
            rcases create_rework_some hcr with ⟨activity, -, rfl⟩
            refine ⟨?_, by decide, fun _ => ⟨rfl, rfl⟩⟩
            dsimp only [update_case, write_in_file, take_draw, add_bills, approve_case]
            simp [List.append_assoc]
    · exact Option.noConfusion hstep

theorem new_case_id_mono {draws : Nat → Nat} :
    ∀ {fuel fuel' ri : Nat} {ids : List Nat} {p : Nat × Nat}, fuel ≤ fuel' →
      new_case_id draws fuel ri ids = some p →
      new_case_id draws fuel' ri ids = some p := by
  intro fuel
  induction fuel with
  | zero => intro f' ri ids p h hN; cases hN
  | succ fuel ih =>
    intro f' ri ids p h hN
    obtain ⟨f'', rfl⟩ : ∃ f'', f' = f'' + 1 := ⟨f' - 1, by omega⟩
    simp only [new_case_id] at hN ⊢
    split at hN
    · rename_i hmem
      rw [if_pos hmem]
      exact ih (by omega) hN
    · rename_i hmem
      rw [if_neg hmem]
      exact hN

theorem billLoop_mono {now value caseId : Nat} :
    ∀ {fuel fuel' t : Nat} {bs : List BillRec}, fuel ≤ fuel' →
      billLoop now value caseId fuel t = some bs →
      billLoop now value caseId fuel' t = some bs := by
  intro fuel
  induction fuel with
  | zero =>
    intro f' t bs h hb
    simp only [billLoop] at hb
    split at hb
    · cases hb
    · rename_i hge
      obtain rfl := (Option.some.injEq _ _).mp hb
      cases f' with
      | zero => simp [billLoop, hge]
      | succ f'' => simp [billLoop, hge]
  | succ fuel ih =>
    intro f' t bs h hb
    obtain ⟨f'', rfl⟩ : ∃ f'', f' = f'' + 1 := ⟨f' - 1, by omega⟩
    simp only [billLoop] at hb ⊢
    split at hb
    · rename_i hlt
      rw [if_pos hlt]
      rcases Option.map_eq_some'.mp hb with ⟨bs', hrec, rfl⟩
      rw [ih (by omega) hrec]
      rfl
    · rename_i hlt
      rw [if_neg hlt]
      exact hb

theorem step_mono {delays draws : Nat → Nat} {now : Nat} {f f' : Nat} {i : Instr}
    {s : EngineState} {r : EngineState × List Instr} (h : f ≤ f')
    (hstep : step delays draws now f i s = some r) :
    step delays draws now f' i s = some r := by
  cases i with
  | start =>
    simp only [step, stepStart] at hstep ⊢
    rcases Option.map_eq_some'.mp hstep with ⟨p, hN, rfl⟩
    rw [new_case_id_mono h hN]
    rfl
  | iniciar_facturacion =>
    simp only [step] at hstep ⊢
    split at hstep
    · rename_i hg
      rw [if_pos hg]
      simp only [stepCase] at hstep ⊢
      split at hstep
      · exact Option.noConfusion hstep
      · rename_i bs hbl
        rw [billLoop_mono h hbl]
        exact hstep
    · exact Option.noConfusion hstep
  | ingresar_tramite => exact hstep
  | registrar_PO => exact hstep
  | registro_de_compromiso => exact hstep
  | enviar_revision_suscripcion => exact hstep
  | validar_info_enviada => exact hstep
  | revision_suscripcion => exact hstep
  | revision_suscripcion_tail => exact hstep
  | aprobar_suscripcion_local => exact hstep
  | aceptar_brocker => exact hstep
  | visado => exact hstep
  | revision_emision => exact hstep
  | finalizar_poliza_factura_cliente => exact hstep

theorem exec_nil {delays draws : Nat → Nat} {now fuel : Nat} {s : EngineState} :
    exec delays draws now fuel [] s = some s := by
  cases fuel <;> rfl

theorem exec_mono {delays draws : Nat → Nat} {now : Nat} :
    ∀ {f f' : Nat} {k : List Instr} {s s' : EngineState}, f ≤ f' →
      exec delays draws now f k s = some s' →
      exec delays draws now f' k s = some s' := by
  intro f
  induction f with
  | zero =>
    intro f' k s s' h hex
    cases k with
    | nil =>
      obtain rfl := (Option.some.injEq _ _).mp hex
      exact exec_nil
    | cons i t => cases hex
  | succ f ih =>
    intro f' k s s' h hex
    cases k with
    | nil =>
      obtain rfl := (Option.some.injEq _ _).mp hex
      exact exec_nil
    | cons i t =>
      obtain ⟨f'', rfl⟩ : ∃ f'', f' = f'' + 1 := ⟨f' - 1, by omega⟩
      simp only [exec] at hex ⊢
      cases hstep : step delays draws now f i s with
      | none => rw [hstep] at hex; cases hex
      | some p =>
        rw [hstep] at hex
        rw [step_mono (by omega) hstep]
        exact ih (by omega) hex

theorem exec_decompose {delays draws : Nat → Nat} {now : Nat} :
    ∀ {fuel : Nat} {k₁ k₂ : List Instr} {s s' : EngineState},
      exec delays draws now fuel (k₁ ++ k₂) s = some s' →
      ∃ s₁, exec delays draws now fuel k₁ s = some s₁ ∧
        exec delays draws now fuel k₂ s₁ = some s' := by
  intro fuel
  induction fuel with
  | zero =>
    intro k₁ k₂ s s' hex
    cases k₁ with
    | nil => exact ⟨s, exec_nil, hex⟩
    | cons i t => cases hex
  | succ fuel ih =>
    intro k₁ k₂ s s' hex
    cases k₁ with
    | nil => exact ⟨s, exec_nil, hex⟩
    | cons i t =>
      simp only [List.cons_append, exec] at hex
      cases hstep : step delays draws now fuel i s with
      | none => rw [hstep] at hex; cases hex
      | some p =>
        obtain ⟨s₀, is⟩ := p
        rw [hstep] at hex
        dsimp only at hex
        rw [show t.append k₂ = t ++ k₂ from rfl, ← List.append_assoc] at hex
        rcases ih hex with ⟨s₁, h₁, h₂⟩
        refine ⟨s₁, ?_, exec_mono (by omega) h₂⟩
        simp only [exec, hstep]
        exact exec_mono (by omega) h₁

theorem exec_acts_extend {delays draws : Nat → Nat} {now : Nat} :
    ∀ {fuel : Nat} {k : List Instr} {s s' : EngineState},
      exec delays draws now fuel k s = some s' → s.acts <+: s'.acts := by
  intro fuel
  induction fuel with
  | zero =>
    intro k s s' hex
    cases k with
    | nil => obtain rfl := (Option.some.injEq _ _).mp hex; exact List.prefix_rfl
    | cons i t => cases hex
  | succ fuel ih =>
    intro k s s' hex
    cases k with
    | nil => obtain rfl := (Option.some.injEq _ _).mp hex; exact List.prefix_rfl
    | cons i t =>
      simp only [exec] at hex
      cases hstep : step delays draws now fuel i s with
      | none => rw [hstep] at hex; cases hex
      | some p =>
        rw [hstep] at hex
        exact ((step_facts hstep).1).trans (ih hex)

theorem exec_no_start {delays draws : Nat → Nat} {now : Nat} :
    ∀ {fuel : Nat} {k : List Instr} {s s' : EngineState}, Instr.start ∉ k →
      exec delays draws now fuel k s = some s' →
      s'.cur.case_id = s.cur.case_id ∧ s'.cases_ids = s.cases_ids := by
  intro fuel
  induction fuel with
  | zero =>
    intro k s s' hns hex
    cases k with
    | nil => obtain rfl := (Option.some.injEq _ _).mp hex; exact ⟨rfl, rfl⟩
    | cons i t => cases hex
  | succ fuel ih =>
    intro k s s' hns hex
    cases k with
    | nil => obtain rfl := (Option.some.injEq _ _).mp hex; exact ⟨rfl, rfl⟩
    | cons i t =>
      simp only [exec] at hex
      cases hstep : step delays draws now fuel i s with
      | none => rw [hstep] at hex; cases hex
      | some p =>
        rw [hstep] at hex
        have hfacts := step_facts hstep
        have hine : i ≠ .start := fun hi => hns (hi ▸ List.mem_cons_self i t)
        have hrest : Instr.start ∉ p.2 ++ t := by
          intro hmem
          rcases List.mem_append.mp hmem with hmem | hmem
          · exact hfacts.2.1 hmem
          · exact hns (List.mem_cons_of_mem _ hmem)
        rcases ih hrest hex with ⟨h₁, h₂⟩
        rcases hfacts.2.2 hine with ⟨h₃, h₄⟩
        exact ⟨h₁.trans h₃, h₂.trans h₄⟩

theorem step_registro_appends {delays draws : Nat → Nat} {now fuel : Nat}
    {s s' : EngineState} {is : List Instr}
    (hstep : step delays draws now fuel .registro_de_compromiso s = some (s', is)) :
    ∃ A : Act, s'.acts = s.acts ++ [A] ∧ A.caseId = s.cur.case_id ∧
      A.name = "Registro de compromiso" := by
  simp only [step] at hstep
  split at hstep
  · simp only [stepCase] at hstep
    obtain ⟨rfl, rfl⟩ := (Prod.mk.injEq _ _ _ _).mp ((Option.some.injEq _ _).mp hstep)
    exact ⟨_, rfl, rfl, rfl⟩
  · exact Option.noConfusion hstep

theorem regOK_mono {s s' : EngineState} (hpre : s.acts <+: s'.acts)
    (hids : s'.cases_ids = s.cases_ids) (h : RegOK s) : RegOK s' := by
  intro cid hm
  rw [hids] at hm
  rcases List.mem_map.mp (h cid hm) with ⟨a, ha, hn⟩
  rcases List.mem_filter.mp ha with ⟨ha', hc⟩
  exact hn ▸ List.mem_map_of_mem _ (List.mem_filter.mpr ⟨hpre.subset ha', hc⟩)

theorem exec_replicate_reg {delays draws : Nat → Nat} {now : Nat} :
    ∀ {n fuel : Nat} {s s' : EngineState}, RegOK s →
      exec delays draws now fuel (List.replicate n .start) s = some s' →
      RegOK s' := by
  intro n
  induction n with
  | zero =>
    intro fuel s s' h hex
    rw [List.replicate_zero, exec_nil] at hex
    obtain rfl := (Option.some.injEq _ _).mp hex
    exact h
  | succ n ih =>
    intro fuel s s' h hex
    rw [List.replicate_succ] at hex
    cases fuel with
    | zero => cases hex
    | succ f =>
      simp only [exec] at hex
      cases hstep : step delays draws now f .start s with
      | none => rw [hstep] at hex; cases hex
      | some p =>
        obtain ⟨s₀, is⟩ := p
        rw [hstep] at hex
        dsimp only at hex
        rcases exec_decompose hex with ⟨s₁, h₁, h₂⟩
        rcases stepStart_char hstep with ⟨cid, r1, -, hacts, -, hids, hcid, -, -, hforms, -⟩
        have hnostart : Instr.start ∉ is := (step_facts hstep).2.1
        obtain ⟨front, rfl⟩ :
            ∃ front, is = front ++ [Instr.registro_de_compromiso] := by
          rcases hforms with rfl | rfl | rfl
          · exact ⟨[.ingresar_tramite], rfl⟩
          · exact ⟨[.visado], rfl⟩
          · exact ⟨[], rfl⟩
        rcases exec_decompose h₁ with ⟨s₂, hfr, hreg⟩
        have hns_front : Instr.start ∉ front :=
          fun hm => hnostart (List.mem_append_left _ hm)
        have hcur₂ : s₂.cur.case_id = cid :=
          (exec_no_start hns_front hfr).1.trans hcid
        cases f with
        | zero => cases hreg
        | succ g =>
          simp only [exec] at hreg
          cases hstep₂ : step delays draws now g .registro_de_compromiso s₂ with
          | none => rw [hstep₂] at hreg; cases hreg
          | some q =>
            obtain ⟨s₃, is₃⟩ := q
            rw [hstep₂] at hreg
            dsimp only at hreg
            rcases step_registro_appends hstep₂ with ⟨A, hA, hAc, hAn⟩
            have hA₃ : A ∈ s₃.acts :=
              hA ▸ List.mem_append_right _ (List.mem_singleton_self _)
            have hA₁ : A ∈ s₁.acts := (exec_acts_extend hreg).subset hA₃
            have hids₁ : s₁.cases_ids = s.cases_ids ++ [cid] :=
              ((exec_no_start hnostart h₁).2).trans hids
            have hreg₁ : RegOK s₁ := by
              intro cid' hm
              rw [hids₁] at hm
              rcases List.mem_append.mp hm with hm | hm
              · rcases List.mem_map.mp (h cid' hm) with ⟨a, ha, hn⟩
                rcases List.mem_filter.mp ha with ⟨ha', hc⟩
                have ha₁ : a ∈ s₁.acts := by
                  refine (exec_acts_extend h₁).subset ?_
                  rw [hacts]
                  exact ha'
                exact hn ▸ List.mem_map_of_mem _ (List.mem_filter.mpr ⟨ha₁, hc⟩)
              · obtain rfl := List.mem_singleton.mp hm
                refine List.mem_map.mpr ⟨A, List.mem_filter.mpr ⟨hA₁, ?_⟩, hAn⟩
                simp [hAc, hcur₂]
            exact ih hreg₁ h₂

theorem sortTs_eq_of_sorted :
    ∀ {l : List Act}, List.Chain' (fun x y : Act => x.ts ≤ y.ts) l → sortTs l = l := by
  intro l
  induction l with
  | nil => intro _; rfl
  | cons a t ih =>
    intro h
    cases t with
    | nil => rfl
    | cons b u =>
      rw [List.chain'_cons'] at h
      obtain ⟨hab, ht⟩ := h
      have hrec : sortTs (b :: u) = b :: u := ih ht
      show insertTs a (sortTs (b :: u)) = a :: b :: u
      rw [hrec]
      simp [insertTs, hab b rfl]

/-! ## The claims -/

/-- C1 (counterexample): a 'Policy onboarding' case whose onboarding flow
reaches the success terminal (approved = true, 'Recepcion pago' recorded) and
for which `start` then still runs `registro_de_compromiso`: at the end of the
run the approved flag is true, 'Recepcion pago' occurs exactly once but is not
the final activity — refuting the claim that for every approved case the
activity sequence ends at its unique 'Recepcion pago'. -/
theorem claim_C1_counterexample :
    runCases constDelay c1draws 0 100 1 = some c1final ∧
    c1final.caseRows.map (fun r => r.approved) = [true] ∧
    (c1final.acts.map (fun a => a.name)).count "Recepcion pago" = 1 ∧
    (c1final.acts.map (fun a => a.name)).getLast?
      = some "Declinar solicitud en suscripcion" ∧
    ¬ (c1final.acts.map (fun a => a.name)).getLast? = some "Recepcion pago" := by
  decide

/-- C1 (amended): in every completed driver run, every case row whose
approved flag is true has recorded at least one 'Recepcion pago' activity
(the success branch records it immediately before setting the flag), but
further activities may follow it and it need not be unique. -/
theorem claim_C1_amended (delays draws : Nat → Nat) (now fuel n : Nat)
    (s' : EngineState) (hrun : runCases delays draws now fuel n = some s') :
    ∀ row ∈ s'.caseRows, row.approved = true →
      "Recepcion pago" ∈
        (s'.acts.filter (fun a => a.caseId = row.id)).map (fun a => a.name) := by
  have hinv : Inv (· ≤ ·) s' :=
    inv_exec (fun x y i hxy => Nat.le_trans hxy (Nat.le_add_right _ _))
      (fun x y h => h) (inv_initState _) hrun
  intro row hrow happ
  rcases hinv.approved_pago row hrow happ with ⟨a, ha, hc, hn⟩
  exact hn ▸ List.mem_map_of_mem _ (List.mem_filter.mpr ⟨ha, by simp [hc]⟩)

theorem claim_C1_amended_witness :
    "Recepcion pago" ∈
      (c1final.acts.filter
        (fun a => a.caseId = (c1final.caseRows.getD 0 default).id)).map
        (fun a => a.name) :=
  claim_C1_amended constDelay c1draws 0 100 1 c1final (by decide)
    (c1final.caseRows.getD 0 default) (by decide) (by decide)

/-- C2 (counterexample): under the stubbed draws of the scenario the first
recorded activity is 'Registro de compromiso'; no activity named 'Start' is
ever recorded (`start` creates the case with state 'Start' but never calls
`update_case`/`write_in_file` for it), refuting the claimed fixed sequence
that begins with a 'Start' activity. -/
theorem claim_C2_counterexample :
    runCases constDelay c2draws 0 100 1 = some c2final ∧
    (c2final.acts.map (fun a => a.name)).head? = some "Registro de compromiso" ∧
    ¬ (c2final.acts.map (fun a => a.name)).head? = some "Start" ∧
    "Start" ∉ c2final.acts.map (fun a => a.name) := by
  decide

/-- C2 (amended): with the draws stubbed as the claim describes (single
Issuance case, direct subscription path, no rework, broker accept, direct to
billing, finalization success), the run records exactly the twenty-stage
sequence below — without any 'Start' activity — with approved = true and zero
Rework rows. -/
theorem claim_C2_amended :
    runCases constDelay c2draws 0 100 1 = some c2final ∧
    c2final.acts.map (fun a => a.name) =
      ["Registro de compromiso", "Enviar a Revisión suscripción",
       "Revisión en suscripción", "Enviar a suscripcion local",
       "Aprobar solicitud en suscripcion local",
       "Enviar respuesta al area comercial",
       "Aceptar (ganado) por parte del Brocker", "Visado",
       "Revisión en emisión", "Iniciar facturación", "Generar Factura",
       "Contabilizar Factura", "Generar poliza", "Enviar factura electronica",
       "Respuesta SRI", "Enviar poliza electronica",
       "Firma poliza electronica por parte del cliente",
       "Finalizar envio poliza y factura al cliente",
       "Finalizar proceso de emision", "Recepcion pago"] ∧
    c2final.caseRows.map (fun r => r.approved) = [true] ∧
    c2final.reworks = [] := by
  decide

/-- C3 (counterexample): a run in which `revision_suscripcion` takes the
rework branch ('Realizar devolucion desde suscripcion' recorded) and, after
the rework recursion returns, the decline/approve draw of the same visit still
executes — the trace ends with two 'Declinar solicitud en suscripcion'
activities — refuting both that the rework branch is the only continuation
and (see the amended theorem) that its probability is 10%. -/
theorem claim_C3_counterexample :
    runCases constDelay c3draws 0 100 1 = some c3final ∧
    c3final.acts.map (fun a => a.name) =
      ["Registro de compromiso", "Enviar a Revisión suscripción",
       "Revisión en suscripción", "Realizar devolucion desde suscripcion",
       "Enviar a Revisión suscripción", "Revisión en suscripción",
       "Enviar a suscripcion local", "Declinar solicitud en suscripcion",
       "Declinar solicitud en suscripcion"] ∧
    (c3final.acts.map (fun a => a.name)).count
      "Realizar devolucion desde suscripcion" = 1 ∧
    (c3final.acts.map (fun a => a.name)).count
      "Declinar solicitud en suscripcion" = 2 := by
  decide

/-- C3 (amended): on every visit to 'Revisión en suscripción' the draw is
`randint(1, 50)` and the rework branch is taken for exactly 10 of those 50
equally likely outcomes — probability 1/5 (20%), not 10% —; when it is not
taken the case proceeds to 'Enviar a suscripcion local'; and in both cases the
decline/approve tail (`revision_suscripcion_tail`) is still scheduled, so the
rework branch is never the only continuation. -/
theorem claim_C3_amended (delays draws : Nat → Nat) (now fuel : Nat)
    (s s' : EngineState) (is : List Instr)
    (hstep : stepCase delays draws now fuel .revision_suscripcion s
      = some (s', is)) :
    (1 + draws s.ri % 50 ≤ 10 →
      is = [.enviar_revision_suscripcion, .revision_suscripcion_tail] ∧
      s'.acts.map (fun a => a.name) = s.acts.map (fun a => a.name) ++
        ["Revisión en suscripción", "Realizar devolucion desde suscripcion"]) ∧
    (¬ 1 + draws s.ri % 50 ≤ 10 →
      is = [.revision_suscripcion_tail] ∧
      s'.acts.map (fun a => a.name) = s.acts.map (fun a => a.name) ++
        ["Revisión en suscripción", "Enviar a suscripcion local"]) ∧
    ((List.range 50).filter (fun r => 1 + r % 50 ≤ 10)).length = 10 ∧
    10 * 5 = 50 ∧ ¬ 10 * 10 = 50 := by
  simp only [stepCase] at hstep
  split at hstep
  · rename_i hle10
    rcases Option.map_eq_some'.mp hstep with ⟨s₁, hcr, heq⟩
    obtain ⟨rfl, rfl⟩ := (Prod.mk.injEq _ _ _ _).mp heq
    rcases create_rework_some hcr with ⟨activity, -, rfl⟩
    refine ⟨fun _ => ⟨rfl, ?_⟩, fun hcond => absurd hle10 hcond, by decide,
      by decide, by decide⟩
    dsimp only [update_case, write_in_file, take_draw]
    simp
  · rename_i hgt10
    split at hstep
    · obtain ⟨rfl, rfl⟩ :=
        (Prod.mk.injEq _ _ _ _).mp ((Option.some.injEq _ _).mp hstep)
      refine ⟨fun hcond => absurd hcond hgt10, fun _ => ⟨rfl, ?_⟩, by decide,
        by decide, by decide⟩
      dsimp only [update_case, write_in_file, take_draw]
      simp
    · rename_i h50f
      exact absurd (by omega) h50f

theorem claim_C3_amended_witness :
    rsOut.2 = [.revision_suscripcion_tail] ∧
    rsOut.1.acts.map (fun a => a.name) = rsState.acts.map (fun a => a.name) ++
      ["Revisión en suscripción", "Enviar a suscripcion local"] :=
  (claim_C3_amended constDelay rsDraws 0 10 rsState rsOut.1 rsOut.2
    (by decide)).2.1 (by decide)

/-- C4: whenever a Rework row is created, its cost is the elapsed seconds
between the case's most recent activity (`.last()`) and the earliest
(`.first()`, not latest) activity named the rework target, or 0 when the
target stage was never visited; and in every completed driver run all rework
costs are nonnegative (per-case timestamps are monotone). -/
theorem claim_C4 :
    (∀ (draws : Nat → Nat) (target : String) (s s' : EngineState),
      create_rework draws target s = some s' →
      ∃ activity, (case_activities s).getLast? = some activity ∧
        s'.reworks = s.reworks ++
          [{ caseId := s.cur.case_id, activityName := activity.name,
             activityTs := activity.ts,
             cost := rework_cost s activity target,
             target := target, cause := draws s.ri % 7 }] ∧
        rework_cost s activity target =
          (match (case_activities s).find? (fun a => a.name = target) with
           | some return_activity =>
              (activity.ts : Int) - (return_activity.ts : Int)
           | none => 0)) ∧
    (∀ (delays draws : Nat → Nat) (now fuel n : Nat) (s' : EngineState),
      runCases delays draws now fuel n = some s' →
      ∀ r ∈ s'.reworks, 0 ≤ r.cost) := by
  constructor
  · intro draws target s s' hcr
    rcases create_rework_some hcr with ⟨activity, hlast, rfl⟩
    exact ⟨activity, hlast, rfl, rfl⟩
  · intro delays draws now fuel n s' hrun
    have hinv : Inv (· ≤ ·) s' :=
      inv_exec (fun x y i hxy => Nat.le_trans hxy (Nat.le_add_right _ _))
        (fun x y h => h) (inv_initState _) hrun
    exact hinv.cost_nonneg

theorem claim_C4_witness : 0 ≤ (c4final.reworks.getD 0 default).cost :=
  claim_C4.2 constDelay c4draws 0 100 1 c4final (by decide)
    (c4final.reworks.getD 0 default) (by decide)

/-- C5: the billing loop terminates (any fuel of at least `now - t` steps
suffices); when the stage timestamp is already ≥ now it emits zero bills; in
general it emits exactly `⌈(now − t) / 30 days⌉` bills with timestamps
`t, t + 30d, t + 60d, …`, each carrying the case's value; in particular
`now − t` of 95 days yields exactly 4 bills. -/
theorem claim_C5 :
    (∀ (now value caseId fuel t : Nat), now - t ≤ fuel →
      (billLoop now value caseId fuel t).isSome) ∧
    (∀ (now value caseId fuel t : Nat) (bs : List BillRec),
      billLoop now value caseId fuel t = some bs →
      (now ≤ t → bs = []) ∧
      bs.length = (now - t + thirtyDays - 1) / thirtyDays ∧
      bs = (List.range bs.length).map
        (fun k => { caseId := caseId, value := value, ts := t + k * thirtyDays }) ∧
      (∀ b ∈ bs, b.value = value) ∧
      (now - t = 95 * secondsPerDay → bs.length = 4)) := by
  refine ⟨fun now v c fuel t h => billLoop_isSome now v c fuel t h, ?_⟩
  intro now v c fuel t bs hb
  obtain ⟨hshape, hlen⟩ := billLoop_spec now v c fuel t bs hb
  refine ⟨?_, hlen, hshape, ?_, ?_⟩
  · intro hge
    have h0 : bs.length = 0 := by
      rw [hlen]
      have hz : now - t = 0 := by omega
      rw [hz]
      decide
    exact List.eq_nil_of_length_eq_zero h0
  · intro b hbmem
    rw [hshape] at hbmem
    rcases List.mem_map.mp hbmem with ⟨k, -, rfl⟩
    rfl
  · intro h95
    rw [hlen, h95]
    decide

theorem claim_C5_witness :
    (billLoop (95 * secondsPerDay) 5000 1 (95 * secondsPerDay) 0).isSome ∧
    ((billLoop (95 * secondsPerDay) 5000 1 10 0).getD []).length = 4 :=
  ⟨claim_C5.1 (95 * secondsPerDay) 5000 1 (95 * secondsPerDay) 0 (by decide),
   (claim_C5.2 (95 * secondsPerDay) 5000 1 10 0
      ((billLoop (95 * secondsPerDay) 5000 1 10 0).getD []) (by decide)).2.2.2.2
      (by decide)⟩

/-- C6 (counterexample): a one-case run whose case id is 7: every activity's
`case_index` is 7 (it is set to `case.case_id` at line 69), while the
insertion-order index of that case within the run is 0 — refuting the claim
that `case_index` is the insertion-order index. -/
theorem claim_C6_counterexample :
    runCases constDelay c6draws 0 100 1 = some c6final ∧
    c6final.cases_ids = [7] ∧
    (c6final.acts.getD 0 default).caseId = 7 ∧
    (c6final.acts.getD 0 default).caseIndex = 7 ∧
    c6final.cases_ids.indexOf (c6final.acts.getD 0 default).caseId = 0 ∧
    ¬ (c6final.acts.getD 0 default).caseIndex
        = c6final.cases_ids.indexOf (c6final.acts.getD 0 default).caseId := by
  decide

/-- C6 (amended): in every completed driver run, every activity's
`case_index` equals its case's id (not the case's insertion-order position). -/
theorem claim_C6_amended (delays draws : Nat → Nat) (now fuel n : Nat)
    (s' : EngineState) (hrun : runCases delays draws now fuel n = some s') :
    ∀ a ∈ s'.acts, a.caseIndex = a.caseId := by
  have hinv : Inv (· ≤ ·) s' :=
    inv_exec (fun x y i hxy => Nat.le_trans hxy (Nat.le_add_right _ _))
      (fun x y h => h) (inv_initState _) hrun
  exact hinv.idx_eq

theorem claim_C6_amended_witness :
    (c6final.acts.getD 0 default).caseIndex = (c6final.acts.getD 0 default).caseId :=
  claim_C6_amended constDelay c6draws 0 100 1 c6final (by decide)
    (c6final.acts.getD 0 default) (by decide)

/-- C8: when every service-time delay draw is positive, the per-case
timestamp sequence of every completed driver run is strictly increasing in
insertion order, so sorting a case's activities by timestamp returns them in
insertion order unchanged. -/
theorem claim_C8 (delays draws : Nat → Nat) (now fuel n : Nat)
    (s' : EngineState) (hpos : ∀ i, 0 < delays i)
    (hrun : runCases delays draws now fuel n = some s') (c : Nat) :
    List.Chain' (· < ·) (timesOf s'.acts c) ∧
    sortTs (s'.acts.filter (fun a => a.caseId = c)) =
      s'.acts.filter (fun a => a.caseId = c) := by
  have hinv : Inv (· < ·) s' :=
    inv_exec
      (fun x y i hxy => Nat.lt_of_le_of_lt hxy (Nat.lt_add_of_pos_right (hpos i)))
      (fun x y h => Nat.le_of_lt h) (inv_initState _) hrun
  refine ⟨hinv.chain c, ?_⟩
  apply sortTs_eq_of_sorted
  have hch := hinv.chain c
  rw [show timesOf s'.acts c
        = (s'.acts.filter (fun a => a.caseId = c)).map (fun a => a.ts) from rfl] at hch
  exact ((List.chain'_map _).mp hch).imp (fun a b h => Nat.le_of_lt h)

theorem claim_C8_witness :
    List.Chain' (· < ·) (timesOf c4final.acts 1) ∧
    sortTs (c4final.acts.filter (fun a => a.caseId = 1)) =
      c4final.acts.filter (fun a => a.caseId = 1) :=
  claim_C8 constDelay c4draws 0 100 1 c4final (fun _ => Nat.one_pos) (by decide) 1

/-- C10: `start` always schedules `registro_de_compromiso` after the
type-specific branch returns — the instruction list it pushes ends with it
and is one of the three forms (onboarding first for 'Policy onboarding'; the
`visado` subtree first for 'Renewal' iff the extra draw is ≤ 50, i.e. for 50
of the 100 equally likely outcomes) — and consequently every case of every
completed driver run records at least one 'Registro de compromiso'
activity. -/
theorem claim_C10 :
    (∀ (draws : Nat → Nat) (fuel : Nat) (s s' : EngineState) (is : List Instr),
      stepStart draws fuel s = some (s', is) →
      is.getLast? = some .registro_de_compromiso ∧
      (s'.cur.type = "Policy onboarding" →
        is = [.ingresar_tramite, .registro_de_compromiso]) ∧
      (is = [.ingresar_tramite, .registro_de_compromiso] ∨
       is = [.visado, .registro_de_compromiso] ∨
       is = [.registro_de_compromiso]) ∧
      (s'.cur.type = "Renewal" → ∃ cid r1,
        new_case_id draws fuel (s.ri + 1) s.cases_ids = some (cid, r1) ∧
        (is = [.visado, .registro_de_compromiso]
          ↔ 1 + draws (r1 + 15) % 100 ≤ 50)) ∧
      ((List.range 100).filter (fun r => 1 + r % 100 ≤ 50)).length = 50) ∧
    (∀ (delays draws : Nat → Nat) (now fuel n : Nat) (s' : EngineState),
      runCases delays draws now fuel n = some s' →
      ∀ cid ∈ s'.cases_ids,
        "Registro de compromiso" ∈
          (s'.acts.filter (fun a => a.caseId = cid)).map (fun a => a.name)) := by
  constructor
  · intro draws fuel s s' is hs
    rcases stepStart_char hs with
      ⟨cid, r1, hN, -, -, -, -, htype, -, hforms, hPO, hRen, -⟩
    refine ⟨?_, ?_, hforms, ?_, by decide⟩
    · rcases hforms with rfl | rfl | rfl <;> rfl
    · intro hty
      exact hPO (htype.symm.trans hty)
    · intro hty
      exact ⟨cid, r1, hN, hRen (htype.symm.trans hty)⟩
  · intro delays draws now fuel n s' hrun
    exact exec_replicate_reg (fun cid hm => absurd hm (List.not_mem_nil _)) hrun

theorem claim_C10_witness :
    "Registro de compromiso" ∈
      (c1final.acts.filter (fun a => a.caseId = 1)).map (fun a => a.name) :=
  claim_C10.2 constDelay c1draws 0 100 1 c1final (by decide) 1 (by decide)

/-! ## Variant discovery: the partition (C7) -/

theorem mem_foldl_dedup {α : Type} [DecidableEq α] :
    ∀ (l acc : List α) (y : α),
      (y ∈ l.foldl (fun acc x => if x ∈ acc then acc else acc ++ [x]) acc) ↔
        (y ∈ acc ∨ y ∈ l) := by
  intro l
  induction l with
  | nil => intro acc y; simp
  | cons x t ih =>
    intro acc y
    rw [List.foldl_cons, ih]
    by_cases hx : x ∈ acc
    · rw [if_pos hx]
      constructor
      · rintro (h | h)
        · exact Or.inl h
        · exact Or.inr (List.mem_cons_of_mem _ h)
      · rintro (h | h)
        · exact Or.inl h
        · rcases List.mem_cons.mp h with rfl | h
          · exact Or.inl hx
          · exact Or.inr h
    · rw [if_neg hx]
      constructor
      · rintro (h | h)
        · rcases List.mem_append.mp h with h | h
          · exact Or.inl h
          · exact Or.inr (List.mem_cons.mpr (Or.inl (List.mem_singleton.mp h)))
        · exact Or.inr (List.mem_cons_of_mem _ h)
      · rintro (h | h)
        · exact Or.inl (List.mem_append_left _ h)
        · rcases List.mem_cons.mp h with rfl | h
          · exact Or.inl (List.mem_append_right _ (List.mem_singleton_self _))
          · exact Or.inr h

theorem mem_dedupAppend {α : Type} [DecidableEq α] {l : List α} {y : α} :
    y ∈ dedupAppend l ↔ y ∈ l := by
  rw [dedupAppend, mem_foldl_dedup]
  simp

theorem nodup_foldl_dedup {α : Type} [DecidableEq α] :
    ∀ (l acc : List α), acc.Nodup →
      (l.foldl (fun acc x => if x ∈ acc then acc else acc ++ [x]) acc).Nodup := by
  intro l
  induction l with
  | nil => intro acc h; exact h
  | cons x t ih =>
    intro acc h
    rw [List.foldl_cons]
    by_cases hx : x ∈ acc
    · rw [if_pos hx]
      exact ih acc h
    · rw [if_neg hx]
      refine ih _ (List.nodup_append.mpr ⟨h, List.nodup_singleton x, ?_⟩)
      intro a ha ha'
      exact hx ((List.mem_singleton.mp ha') ▸ ha)

theorem nodup_dedupAppend {α : Type} [DecidableEq α] (l : List α) :
    (dedupAppend l).Nodup :=
  nodup_foldl_dedup l [] List.nodup_nil

theorem sum_map_add_nat {α : Type} (l : List α) (f g : α → Nat) :
    (l.map (fun x => f x + g x)).sum = (l.map f).sum + (l.map g).sum := by
  induction l with
  | nil => rfl
  | cons x t ih =>
    simp only [List.map_cons, List.sum_cons, ih]
    omega

theorem sum_map_indicator {α : Type} [DecidableEq α] :
    ∀ {K : List α}, K.Nodup → ∀ {x : α}, x ∈ K →
      (K.map (fun k => if x = k then (1 : Nat) else 0)).sum = 1 := by
  intro K
  induction K with
  | nil => intro _ x hx; cases hx
  | cons a t ih =>
    intro hK x hx
    rw [List.map_cons, List.sum_cons]
    rcases List.mem_cons.mp hx with rfl | hx'
    · rw [if_pos rfl]
      have hxt : x ∉ t := (List.nodup_cons.mp hK).1
      have hz : (t.map (fun k => if x = k then (1 : Nat) else 0)).sum = 0 := by
        apply List.sum_eq_zero
        intro y hy
        rcases List.mem_map.mp hy with ⟨k, hk, rfl⟩
        by_cases hxk : x = k
        · exact absurd (hxk ▸ hk) hxt
        · rw [if_neg hxk]
      omega
    · have hax : ¬ x = a := fun h => (List.nodup_cons.mp hK).1 (h ▸ hx')
      rw [if_neg hax, ih (List.nodup_cons.mp hK).2 hx']

theorem sum_filter_lengths {α κ : Type} [DecidableEq κ] (f : α → κ) :
    ∀ (l : List α) (K : List κ), K.Nodup → (∀ x ∈ l, f x ∈ K) →
      (K.map (fun k => (l.filter (fun x => f x = k)).length)).sum = l.length := by
  intro l
  induction l with
  | nil =>
    intro K hK h
    simp
  | cons x t ih =>
    intro K hK h
    have hsplit : ∀ k ∈ K, ((x :: t).filter (fun y => f y = k)).length
        = (if f x = k then 1 else 0) + (t.filter (fun y => f y = k)).length := by
      intro k _
      rw [List.filter_cons]
      by_cases hfx : f x = k
      · simp only [hfx, decide_True, if_true, List.length_cons]
        omega
      · simp [hfx]
    rw [List.map_congr_left hsplit, sum_map_add_nat,
        sum_map_indicator hK (h x (List.mem_cons_self x t)),
        ih K hK (fun y hy => h y (List.mem_cons_of_mem _ hy))]
    simp [Nat.add_comm]

theorem length_filter_eq_one {α : Type} [DecidableEq α] :
    ∀ {K : List α}, K.Nodup → ∀ {x : α}, x ∈ K →
      (K.filter (fun k => x = k)).length = 1 := by
  intro K
  induction K with
  | nil => intro _ x hx; cases hx
  | cons a t ih =>
    intro hK x hx
    rw [List.filter_cons]
    rcases List.mem_cons.mp hx with rfl | hx'
    · have hxt : x ∉ t := (List.nodup_cons.mp hK).1
      have hnil : t.filter (fun k => x = k) = [] := by
        apply List.filter_eq_nil_iff.mpr
        intro k hk
        simp only [decide_eq_true_eq]
        exact fun h => hxt (h ▸ hk)
      simp [hnil]
    · have hax : ¬ x = a := fun h => (List.nodup_cons.mp hK).1 (h ▸ hx')
      simp only [hax, decide_False, if_false, cond_false]
      exact ih (List.nodup_cons.mp hK).2 hx'

/-- C7: variant discovery partitions the cases exactly — every case id of the
activity set belongs to exactly one variant's case set (the one keyed by its
ordered activity-name sequence), the variants' `number_cases` sum to the total
case count, and every variant's percentage is its case count over the total
times 100. -/
theorem claim_C7 (acts : List Act) :
    (∀ c ∈ casesOf acts,
      ((createVariants acts).filter (fun v => c ∈ v.cases)).length = 1) ∧
    ((createVariants acts).map (fun v => v.number_cases)).sum
      = (casesOf acts).length ∧
    (∀ v ∈ createVariants acts,
      v.percentage = ((v.number_cases : ℚ) / ((casesOf acts).length : ℚ)) * 100) := by
  have hnodupK : (variantKeys acts).Nodup := nodup_dedupAppend _
  refine ⟨?_, ?_, ?_⟩
  · intro c hc
    have hmemK : seqOf acts c ∈ variantKeys acts :=
      mem_dedupAppend.mpr (List.mem_map_of_mem _ hc)
    have hrw : ((createVariants acts).filter (fun v => c ∈ v.cases)).length
        = ((variantKeys acts).filter (fun k => seqOf acts c = k)).length := by
      rw [createVariants, List.filter_map, List.length_map]
      congr 1
      apply List.filter_congr
      intro k hk
      simp only [Function.comp_apply]
      rw [decide_eq_decide]
      constructor
      · intro hmem
        exact of_decide_eq_true (List.mem_filter.mp hmem).2
      · intro hseq
        exact List.mem_filter.mpr ⟨hc, decide_eq_true hseq⟩
    rw [hrw]
    exact length_filter_eq_one hnodupK hmemK
  · rw [createVariants, List.map_map]
    exact sum_filter_lengths (seqOf acts) (casesOf acts) (variantKeys acts) hnodupK
      (fun x hx => mem_dedupAppend.mpr (List.mem_map_of_mem _ hx))
  · intro v hv
    rw [createVariants] at hv
    rcases List.mem_map.mp hv with ⟨k, hk, rfl⟩
    rfl

theorem claim_C7_witness :
    ((createVariants
        [{ id := 0, caseId := 1, name := "A", ts := 0, caseIndex := 1, tpt := 0 },
         { id := 1, caseId := 1, name := "B", ts := 5, caseIndex := 1, tpt := 0 },
         { id := 2, caseId := 2, name := "A", ts := 3, caseIndex := 2, tpt := 0 }]).filter
      (fun v => 1 ∈ v.cases)).length = 1 :=
  (claim_C7
    [{ id := 0, caseId := 1, name := "A", ts := 0, caseIndex := 1, tpt := 0 },
     { id := 1, caseId := 1, name := "B", ts := 5, caseIndex := 1, tpt := 0 },
     { id := 2, caseId := 2, name := "A", ts := 3, caseIndex := 2, tpt := 0 }]).1
    1 (by decide)

/-! ## Analytics idempotence (C9) -/

theorem tptUpd_id (assigns : List (Nat × Int)) (a : Act) :
    (tptUpd assigns a).id = a.id := by
  unfold tptUpd
  split <;> rfl

theorem tptUpd_ts (assigns : List (Nat × Int)) (a : Act) :
    (tptUpd assigns a).ts = a.ts := by
  unfold tptUpd
  split <;> rfl

theorem tptUpd_caseId (assigns : List (Nat × Int)) (a : Act) :
    (tptUpd assigns a).caseId = a.caseId := by
  unfold tptUpd
  split <;> rfl

theorem tptUpd_caseIndex (assigns : List (Nat × Int)) (a : Act) :
    (tptUpd assigns a).caseIndex = a.caseIndex := by
  unfold tptUpd
  split <;> rfl

theorem tptUpd_name (assigns : List (Nat × Int)) (a : Act) :
    (tptUpd assigns a).name = a.name := by
  unfold tptUpd
  split <;> rfl

theorem filter_map_comm {f : Act → Act} {p : Act → Bool}
    (hp : ∀ a, p (f a) = p a) (acts : List Act) :
    (acts.map f).filter p = (acts.filter p).map f := by
  rw [List.filter_map]
  congr 1
  apply List.filter_congr
  intro a _
  exact hp a

theorem insertTs_map {f : Act → Act} (hts : ∀ a, (f a).ts = a.ts) (a : Act) :
    ∀ l : List Act, insertTs (f a) (l.map f) = (insertTs a l).map f := by
  intro l
  induction l with
  | nil => rfl
  | cons b t ih =>
    simp only [List.map_cons, insertTs, hts]
    by_cases h : a.ts ≤ b.ts
    · simp [h]
    · simp [h, ih]

theorem sortTs_map {f : Act → Act} (hts : ∀ a, (f a).ts = a.ts) :
    ∀ l : List Act, sortTs (l.map f) = (sortTs l).map f := by
  intro l
  induction l with
  | nil => rfl
  | cons a t ih =>
    simp only [List.map_cons, sortTs, ih]
    exact insertTs_map hts a (sortTs t)

theorem getD_map_of_lt {f : Act → Act} {l : List Act} {i : Nat}
    (h : i < l.length) (d : Act) :
    (l.map f).getD i d = f (l.getD i d) := by
  rw [List.getD_eq_getElem?_getD, List.getD_eq_getElem?_getD, List.getElem?_map,
      List.getElem?_eq_getElem h]
  rfl

theorem tptAssignments_map {f : Act → Act}
    (hts : ∀ a, (f a).ts = a.ts) (hid : ∀ a, (f a).id = a.id)
    (hci : ∀ a, (f a).caseIndex = a.caseIndex) (acts : List Act) :
    tptAssignments (acts.map f) = tptAssignments acts := by
  unfold tptAssignments
  have hidx : (acts.map f).map (fun a => a.caseIndex)
      = acts.map (fun a => a.caseIndex) := by
    rw [List.map_map]
    exact List.map_congr_left (fun a _ => hci a)
  rw [hidx]
  congr 1
  funext index
  have hgroup : (acts.map f).filter (fun a => a.caseIndex = index)
      = (acts.filter (fun a => a.caseIndex = index)).map f :=
    filter_map_comm (fun a => by simp [hci]) acts
  rw [hgroup, sortTs_map hts]
  dsimp only
  rw [List.length_map]
  apply List.map_congr_left
  intro i hi
  have hlen := List.mem_range.mp hi
  have hi1 : i < (sortTs (acts.filter (fun a => a.caseIndex = index))).length := by
    omega
  have hi2 : i + 1 < (sortTs (acts.filter (fun a => a.caseIndex = index))).length := by
    omega
  rw [getD_map_of_lt hi1, getD_map_of_lt hi2, hid, hts, hts]

theorem tptUpd_idem (assigns : List (Nat × Int)) (a : Act) :
    tptUpd assigns (tptUpd assigns a) = tptUpd assigns a := by
  have hkey : (tptUpd assigns a).id = a.id := tptUpd_id assigns a
  cases hf : assigns.find? (fun p => p.1 = a.id) with
  | none =>
    have : tptUpd assigns a = a := by
      unfold tptUpd
      rw [hf]
    rw [this]
    unfold tptUpd
    rw [hf]
  | some p =>
    have h1 : tptUpd assigns a = { a with tpt := p.2 } := by
      unfold tptUpd
      rw [hf]
    rw [h1]
    unfold tptUpd
    have : ({ a with tpt := p.2 } : Act).id = a.id := rfl
    rw [this, hf]

theorem addTPT_idem (acts : List Act) : addTPT (addTPT acts) = addTPT acts := by
  show applyTpt (tptAssignments (applyTpt (tptAssignments acts) acts))
      (applyTpt (tptAssignments acts) acts) = applyTpt (tptAssignments acts) acts
  rw [show applyTpt (tptAssignments acts) acts
      = acts.map (tptUpd (tptAssignments acts)) from rfl]
  rw [tptAssignments_map (tptUpd_ts _) (tptUpd_id _) (tptUpd_caseIndex _)]
  show (acts.map (tptUpd (tptAssignments acts))).map (tptUpd (tptAssignments acts))
      = acts.map (tptUpd (tptAssignments acts))
  rw [List.map_map]
  exact List.map_congr_left (fun a _ => tptUpd_idem _ a)

theorem casesOf_map {f : Act → Act} (hid : ∀ a, (f a).caseId = a.caseId)
    (acts : List Act) : casesOf (acts.map f) = casesOf acts := by
  unfold casesOf
  rw [List.map_map]
  congr 1
  exact List.map_congr_left (fun a _ => hid a)

theorem seqOf_map {f : Act → Act} (hid : ∀ a, (f a).caseId = a.caseId)
    (hname : ∀ a, (f a).name = a.name) (acts : List Act) (c : Nat) :
    seqOf (acts.map f) c = seqOf acts c := by
  unfold seqOf
  rw [filter_map_comm (fun a => by simp [hid]), List.map_map]
  exact List.map_congr_left (fun a _ => hname a)

theorem timesOf_map {f : Act → Act} (hid : ∀ a, (f a).caseId = a.caseId)
    (hts : ∀ a, (f a).ts = a.ts) (acts : List Act) (c : Nat) :
    timesOf (acts.map f) c = timesOf acts c := by
  unfold timesOf
  rw [filter_map_comm (fun a => by simp [hid]), List.map_map]
  exact List.map_congr_left (fun a _ => hts a)

theorem createVariants_map {f : Act → Act}
    (hid : ∀ a, (f a).caseId = a.caseId) (hname : ∀ a, (f a).name = a.name)
    (hts : ∀ a, (f a).ts = a.ts) (acts : List Act) :
    createVariants (acts.map f) = createVariants acts := by
  have hcases := casesOf_map hid acts
  have hseq := seqOf_map hid hname acts
  have htimes := timesOf_map hid hts acts
  have hdur : ∀ c, durationOf (acts.map f) c = durationOf acts c := by
    intro c
    unfold durationOf
    rw [htimes]
  have hkeys : variantKeys (acts.map f) = variantKeys acts := by
    unfold variantKeys
    rw [hcases]
    congr 1
    exact List.map_congr_left (fun c _ => hseq c)
  unfold createVariants
  rw [hkeys]
  apply List.map_congr_left
  intro key hk
  simp only [hcases, hseq, hdur]

theorem avgTimeOf_map {f : Act → Act}
    (hid : ∀ a, (f a).caseId = a.caseId) (hts : ∀ a, (f a).ts = a.ts)
    (acts : List Act) (c : Nat) :
    avgTimeOf (acts.map f) c = avgTimeOf acts c := by
  unfold avgTimeOf
  rw [filter_map_comm (fun a => by simp [hid]), sortTs_map hts]
  dsimp only
  rw [List.head?_map, List.getLast?_map]
  cases (sortTs (acts.filter (fun a => a.caseId = c))).head? with
  | none => rfl
  | some x =>
    cases (sortTs (acts.filter (fun a => a.caseId = c))).getLast? with
    | none => rfl
    | some y => simp [hts]

/-- C9: the post-processing pass is idempotent — running `add_TPT` a second
time over the (tpt-updated but otherwise unchanged) activity set reproduces
the same activity set, and `create_variants` / per-case `avg_time` computed
from the updated set equal those computed from the original set: each
analytics output is a pure function of the persisted case ids, names and
timestamps, which the pass never modifies. -/
theorem claim_C9 (acts : List Act) :
    addTPT (addTPT acts) = addTPT acts ∧
    createVariants (addTPT acts) = createVariants acts ∧
    ∀ c : Nat, avgTimeOf (addTPT acts) c = avgTimeOf acts c := by
  refine ⟨addTPT_idem acts, ?_, ?_⟩
  · exact createVariants_map (tptUpd_caseId _) (tptUpd_name _) (tptUpd_ts _) acts
  · intro c
    exact avgTimeOf_map (tptUpd_caseId _) (tptUpd_ts _) acts c

theorem claim_C9_witness :
    addTPT (addTPT
      [{ id := 0, caseId := 1, name := "A", ts := 0, caseIndex := 1, tpt := 0 },
       { id := 1, caseId := 1, name := "B", ts := 5, caseIndex := 1, tpt := 0 }]) =
    addTPT
      [{ id := 0, caseId := 1, name := "A", ts := 0, caseIndex := 1, tpt := 0 },
       { id := 1, caseId := 1, name := "B", ts := 5, caseIndex := 1, tpt := 0 }] :=
  (claim_C9
    [{ id := 0, caseId := 1, name := "A", ts := 0, caseIndex := 1, tpt := 0 },
     { id := 1, caseId := 1, name := "B", ts := 5, caseIndex := 1, tpt := 0 }]).1

end UnifiedBackend
